import Mathlib

/-!
Verification of the local-project synchronization core of the Mergin python
client (`mergin/merginproject.py`): change detection between file inventories,
pull/push planning for structured (geodiff) files, and the pull apply engine
with its three-way rebase recovery.

Modelling conventions of this shallow embedding:
* File contents and geodiff changesets are opaque tokens (`Nat`).
* The working tree, the `.mergin` meta directory (basefile mirror, also the
  home of transient changeset files) and the pull temp directory are three
  disjoint name spaces of a single finite store keyed by `Loc`.
* The opaque structured-diff library (`pygeodiff`) is an arbitrary `GeoDiff`
  record of pure functions; a `none` result models a raised
  `GeoDiffLibError`/`GeoDiffLibConflictError` (callers treat both alike).
* Machine integers (sizes, versions) are `Nat`; `size / 2` comparisons are
  done exactly (`2 * d < size`), mirroring python's exact integer values.
-/

/-- A file location: `work p` is the project file at relative posix path `p`
(resolved by `fpath`), `mirror p` the file at the same relative path inside
the `.mergin` meta directory (`fpath_meta`), and `temp p` a file inside the
temp directory passed to `apply_pull_changes`. -/
inductive Loc where
  | work (p : String)
  | mirror (p : String)
  | temp (p : String)
deriving DecidableEq, Repr

/-- A finite file store: association list from location to content token.
Earlier bindings shadow later ones. -/
abbrev Fs : Type := List (Loc × Nat)

/-- Content of the file at `l` (`none`: no such file). -/
def fsGet : Fs → Loc → Option Nat
  | [], _ => none
  | (l', c) :: rest, l => if l = l' then some c else fsGet rest l

/-- Write (create or overwrite) the file at `l`. -/
def fsWrite (l : Loc) (c : Nat) (fs : Fs) : Fs := (l, c) :: fs

/-- `os.remove l`. The python call raises on a missing file; every call site
modelled here either checked existence first or is only reached (in the
theorems below) with the file present, so the missing-file branch of the
model is a harmless no-op. -/
def fsRemove (l : Loc) (fs : Fs) : Fs := fs.filter (fun e => !decide (e.1 = l))

/-- `shutil.copy src dst`. Copying a missing source raises in python; the
call sites proved about below always have an existing source, so the
missing-source branch (a no-op here) is never reached in the theorems. -/
def fsCopy (src dst : Loc) (fs : Fs) : Fs :=
  match fsGet fs src with
  | some c => fsWrite dst c fs
  | none => fs

@[simp] theorem fsGet_nil (l : Loc) : fsGet [] l = none := rfl

@[simp] theorem fsGet_write_same (l : Loc) (c : Nat) (fs : Fs) :
    fsGet (fsWrite l c fs) l = some c := by
  simp [fsGet, fsWrite]

theorem fsGet_write_ne {l' l : Loc} (c : Nat) (fs : Fs) (h : l' ≠ l) :
    fsGet (fsWrite l c fs) l' = fsGet fs l' := by
  simp [fsGet, fsWrite, h]

@[simp] theorem fsGet_remove_same (l : Loc) (fs : Fs) :
    fsGet (fsRemove l fs) l = none := by
  induction fs with
  | nil => rfl
  | cons e rest ih =>
    by_cases he : e.1 = l
    · simpa [fsRemove, he] using ih
    · obtain ⟨l', c⟩ := e
      simp only at he
      simp [fsRemove, he, fsGet, Ne.symm he] at ih ⊢
      exact ih

theorem fsGet_remove_ne {l' l : Loc} (fs : Fs) (h : l' ≠ l) :
    fsGet (fsRemove l fs) l' = fsGet fs l' := by
  induction fs with
  | nil => rfl
  | cons e rest ih =>
    obtain ⟨k, c⟩ := e
    by_cases hk : k = l
    · subst hk
      simp [fsRemove, fsGet, h] at ih ⊢
      exact ih
    · by_cases hk' : l' = k
      · subst hk'
        simp [fsRemove, hk, fsGet] at ih ⊢
      · simp [fsRemove, hk, fsGet, hk'] at ih ⊢
        exact ih

/-! ### String facts used for location disequalities -/

theorem str_append_cancel {p a b : String} (h : p ++ a = p ++ b) : a = b := by
  have hd : p.data ++ a.data = p.data ++ b.data := congrArg String.data h
  exact String.ext (List.append_cancel_left hd)

theorem str_app_ne_app (p : String) {a b : String} (h : a ≠ b) :
    p ++ a ≠ p ++ b :=
  fun he => h (str_append_cancel he)

theorem str_ne_append (p : String) {a : String} (h : a ≠ "") : p ≠ p ++ a := by
  intro he
  have hd : p.data = p.data ++ a.data := congrArg String.data he
  have hlen := congrArg List.length hd
  rw [List.length_append] at hlen
  have hz : a.data.length = 0 := by omega
  exact h (String.ext (List.eq_nil_of_length_eq_zero hz))

theorem work_ne_work {a b : String} (h : a ≠ b) : Loc.work a ≠ Loc.work b := by
  simp [h]

theorem mirror_ne_mirror {a b : String} (h : a ≠ b) :
    Loc.mirror a ≠ Loc.mirror b := by
  simp [h]

theorem temp_ne_temp {a b : String} (h : a ≠ b) : Loc.temp a ≠ Loc.temp b := by
  simp [h]

/-! ### The structured-diff capability (`pygeodiff.GeoDiff`)

Each operation takes the contents of its input files (`none` = file missing)
and returns `none` when the library raises (`GeoDiffLibError` or
`GeoDiffLibConflictError` — the client catches both together and treats them
alike, see `merginproject.py`). An operation that writes an output file
returns the written content. -/

structure GeoDiff where
  /-- `create_changeset base current` returns the changeset written to the
  output path, or `none` on a library error. -/
  create_changeset : Option Nat → Option Nat → Option Nat
  /-- `apply_changeset target diff` returns the new content of `target`. -/
  apply_changeset : Option Nat → Option Nat → Option Nat
  /-- `rebase base server local` returns the new content of `local`. -/
  rebase : Option Nat → Option Nat → Option Nat → Option Nat
  /-- `has_changes diff` tells whether the changeset has any change. -/
  has_changes : Option Nat → Option Bool

/-! ### `os.path.splitext` and the ignore / versioned-file predicates -/

/-- Split a character list at its last `'.'`: `some (before, after)`. -/
def splitLastDot : List Char → Option (List Char × List Char)
  | [] => none
  | c :: rest =>
    match splitLastDot rest with
    | some (a, b) => some (c :: a, b)
    | none => if c = '.' then some ([], rest) else none

/-- Characters after the last `'/'` (posix basename, as used on the relative
project paths the client passes around). -/
def basenameChars (cs : List Char) : List Char :=
  match splitLast cs with
  | some (_, b) => b
  | none => cs
where
  /-- split at the last `'/'` -/
  splitLast : List Char → Option (List Char × List Char)
    | [] => none
    | c :: rest =>
      match splitLast rest with
      | some (a, b) => some (c :: a, b)
      | none => if c = '/' then some ([], rest) else none

/-- The extension part of `os.path.splitext file`: everything from the last
dot of the basename on, except that a basename consisting of leading dots
only (e.g. `.DS_Store`) has no extension. -/
def splitextExt (file : String) : String :=
  let base := basenameChars file.data
  match splitLastDot base with
  | some (a, b) => if a.any (fun c => c ≠ '.') then ⟨'.' :: b⟩ else ""
  | none => ""

/-- `re.search` of the anchored alternation `(-shm|-wal|~|pyc|swap)$` used by
`ignore_file`: does `ext` end with one of the blacklisted suffixes? -/
def ignore_ext_search (ext : String) : Bool :=
  ["-shm", "-wal", "~", "pyc", "swap"].any (fun suf => suf.data.isSuffixOf ext.data)

/-- `MerginProject.ignore_file`: blacklist by extension suffix or exact name. -/
def ignore_file (file : String) : Bool :=
  let ext := splitextExt file
  if ext ≠ "" && ignore_ext_search ext then true
  else if file = ".DS_Store" || file = ".directory" then true
  else false

/-- Extension-based part of `is_versioned_file` (geodiff-compatible files). -/
def is_versioned_path (file : String) : Bool :=
  splitextExt file = ".gpkg" || splitextExt file = ".sqlite"

/-- `MerginProject.is_versioned_file`: `false` whenever the geodiff library is
unavailable (`self.geodiff` is `None`), else decided by the extension. -/
def is_versioned_file (geodiff : Option GeoDiff) (file : String) : Bool :=
  match geodiff with
  | none => false
  | some _ => is_versioned_path file

/-! ### File inventory (`inspect_files`)

The project directory is a finite tree; `inspectTree` models the `os.walk`
loop of `inspect_files`: directories named `.mergin` are pruned, ignored
files are skipped, and each surviving file contributes its posix relative
path. The fingerprint fields (checksum, size, mtime) are functions of the
file alone and are irrelevant to the claims about which paths are
inventoried, so the model returns the paths. -/

inductive DirTree where
  | node (files : List String) (subdirs : List (String × DirTree))

mutual

def inspectTree : DirTree → List String
  | .node files subdirs =>
    files.filter (fun f => !ignore_file f) ++ inspectSubdirs subdirs

def inspectSubdirs : List (String × DirTree) → List String
  | [] => []
  | (d, t) :: rest =>
    (if d = ".mergin" then [] else (inspectTree t).map (fun q => d ++ "/" ++ q))
      ++ inspectSubdirs rest

end

/-- Join directory components and a basename into a posix relative path. -/
def joinPath (dirs : List String) (name : String) : String :=
  dirs.foldr (fun d acc => d ++ "/" ++ acc) name

/-! ### Change detection (`compare_file_sets`) -/

/-- A file fingerprint as used by the change detector. The `mtime` field of
the source dicts is never consulted by any of the compared logic and is
omitted. -/
structure FileMeta where
  path : String
  checksum : String
  size : Nat
deriving DecidableEq, Repr

/-- An entry of the `renamed` group: `{**rf, "new_path": match["path"]}`. -/
structure RenamedMeta where
  path : String
  checksum : String
  size : Nat
  new_path : String
deriving DecidableEq, Repr

/-- An entry of the `updated` group: the current fingerprint plus the
`origin_checksum` field added by `compare_file_sets`. -/
structure UFile where
  path : String
  checksum : String
  size : Nat
  origin_checksum : String
deriving DecidableEq, Repr

structure Changes where
  renamed : List RenamedMeta
  added : List FileMeta
  removed : List FileMeta
  updated : List UFile
deriving DecidableEq, Repr

/-- Lookup in the dict `{f["path"]: f for f in l}`: on duplicate paths the
later entry wins, hence the first match of the reversed list. -/
def pathLookup (l : List FileMeta) (p : String) : Option FileMeta :=
  l.reverse.find? (fun f => f.path == p)

/-- `find` from the client's `utils` module, whose file is absent from the
sources. Modelled from the spec: return the first item of `items` satisfying
the predicate, else nothing ("first match wins, scan order is insertion
order"). -/
def find (items : List FileMeta) (pred : FileMeta → Bool) : Option FileMeta :=
  items.find? pred

/-- The `moved` accumulation loop of `compare_file_sets`: scan `removed`, for
each entry search `current` for the first fingerprint with equal checksum and
size whose path differs from the (old) `path` of every pair matched so far. -/
def movedStep (current : List FileMeta) (moved : List RenamedMeta)
    (rf : FileMeta) : List RenamedMeta :=
  match find current
      (fun f => f.checksum == rf.checksum && f.size == rf.size &&
        moved.all (fun mf => f.path != mf.path)) with
  | some m => moved ++ [⟨rf.path, rf.checksum, rf.size, m.path⟩]
  | none => moved

def movedList (removed current : List FileMeta) : List RenamedMeta :=
  removed.foldl (movedStep current) []

/-- `MerginProject.compare_file_sets origin current`. -/
def compare_file_sets (origin current : List FileMeta) : Changes :=
  let removed := origin.filter (fun f => !current.any (fun g => g.path == f.path))
  let added := current.filter (fun f => !origin.any (fun g => g.path == f.path))
  let moved := movedList removed current
  let added := added.filter (fun f => moved.all (fun mf => f.path != mf.new_path))
  let removed := removed.filter (fun f => moved.all (fun mf => f.path != mf.path))
  let updated := current.filterMap (fun f =>
    match pathLookup origin f.path with
    | none => none
    | some o =>
      if f.checksum == o.checksum then none
      else some ⟨f.path, f.checksum, f.size, o.checksum⟩)
  { renamed := moved, added := added, removed := removed, updated := updated }

/-! ### Pull planning (`get_pull_changes`, lines 199-247)

`get_pull_changes` first runs `compare_file_sets(self.metadata['files'],
server_files)` and then, when the diff engine is available, post-processes
the `updated` group using each server file's version history; only that
post-processing is modelled here (the server entries carry a `history` that
the plain fingerprints of `compare_file_sets` do not). -/

/-- `int_version` from the client's `utils` module, whose file is absent from
the sources. Modelled from the spec: parse the ordered version token `v<N>`
to the integer `N` ("parse `v<N>` once into an integer and compare
integers"); python's `int(version.lstrip('v'))` on a well-formed token. -/
def int_version (version : String) : Nat :=
  parseDigits (version.data.dropWhile (fun c => c = 'v')) 0
where
  /-- decimal value of a digit string (well-formed tokens assumed; python's
  `int` raises on anything else) -/
  parseDigits : List Char → Nat → Nat
    | [], acc => acc
    | c :: rest, acc => parseDigits rest (acc * 10 + (c.toNat - '0'.toNat))

/-- The `diff` sub-dict of a history entry (checksum/mtime unused by the
planner and omitted). -/
structure DiffMeta where
  path : String
  size : Nat
deriving DecidableEq, Repr

/-- A server `updated` entry as consumed by the pull planner: fingerprint
plus per-version history (insertion-ordered, as a python dict), plus the
`diffs` key the planner may attach. -/
structure PullFile where
  path : String
  checksum : String
  size : Nat
  history : List (String × Option DiffMeta)
  diffs : Option (List String) := none
deriving DecidableEq, Repr

/-- The history walk of `get_pull_changes` (lines 229-238): skip entries at
or below the local version; append diff paths and accumulate their sizes;
on an entry without `diff` (force update) clear `diffs` and break. Returns
`(diffs, diffs_size, is_updated)`. -/
def pullWalk (lv : Nat) : List (String × Option DiffMeta) → List String → Nat →
    Bool → List String × Nat × Bool
  | [], diffs, dsz, upd => (diffs, dsz, upd)
  | (k, v) :: rest, diffs, dsz, upd =>
    if int_version k ≤ lv then pullWalk lv rest diffs dsz upd
    else
      match v with
      | some d => pullWalk lv rest (diffs ++ [d.path]) (dsz + d.size) true
      | none => ([], dsz, true)

/-- Per-file body of the `for file in changes['updated']` loop: returns the
(possibly annotated) file and whether it was put into `not_updated`.
Non-versioned files are skipped (`continue`); `size > size_limit` and
`diffs_size < size / 2` are the exact integer comparisons. -/
def processPullFile (size_limit : Nat) (lv : String) (f : PullFile) :
    PullFile × Bool :=
  if !is_versioned_path f.path then (f, false)
  else
    let w := pullWalk (int_version lv) f.history [] 0 false
    if w.2.2 then
      (if !w.1.isEmpty && size_limit < f.size && 2 * w.2.1 < f.size then
        { f with diffs := some w.1 }
      else f, false)
    else (f, true)

/-- The `updated` group of the plan returned by `get_pull_changes`:
unchanged when the diff engine is unavailable, else each file is processed
and the files collected in `not_updated` are filtered out (python's
`f not in not_updated` list-membership test on the dicts). `size_limit` is
`int(os.environ.get('DIFFS_LIMIT_SIZE', 1024*1024))` and `lv` is
`self.metadata['version']`. -/
def get_pull_changes_updated (geodiffAvailable : Bool) (size_limit : Nat)
    (lv : String) (updated : List PullFile) : List PullFile :=
  if !geodiffAvailable then updated
  else
    let processed := updated.map (processPullFile size_limit lv)
    let not_updated := (processed.filter (fun x => x.2)).map (fun x => x.1)
    (processed.map (fun x => x.1)).filter (fun f => !not_updated.contains f)

/-- History entries strictly later than the local version. -/
def laterEntries (lv : String) (hist : List (String × Option DiffMeta)) :
    List (String × Option DiffMeta) :=
  hist.filter (fun e => decide (int_version lv < int_version e.1))

/-- No entry later than the local version lacks a `diff` (no force update). -/
def noForce (lv : String) (hist : List (String × Option DiffMeta)) : Prop :=
  ∀ e ∈ laterEntries lv hist, e.2.isSome

instance (lv : String) (hist : List (String × Option DiffMeta)) :
    Decidable (noForce lv hist) := by
  unfold noForce; infer_instance

/-- The diff paths of the later entries, in history order. -/
def laterDiffPaths (lv : String) (hist : List (String × Option DiffMeta)) :
    List String :=
  ((laterEntries lv hist).filterMap (fun e => e.2)).map (fun d => d.path)

/-- Total size of the later entries' diffs. -/
def laterDiffsSize (lv : String) (hist : List (String × Option DiffMeta)) : Nat :=
  (((laterEntries lv hist).filterMap (fun e => e.2)).map (fun d => d.size)).sum

/-! ### Push planning (`get_push_changes`, lines 249-300) -/

/-- `ceil(a / b)` on integers (python computes `math.ceil` of the exact
ratio; for `b > 0` this is it). -/
def ceilDiv (a b : Nat) : Nat := (a + b - 1) / b

/-- The `diff` fingerprint attached to a pushed updated file (mtime
omitted as above). -/
structure PushDiffMeta where
  path : String
  checksum : String
  size : Nat
deriving DecidableEq, Repr

/-- An entry of the push plan's `added`/`updated` groups: fingerprint,
`origin_checksum` (present exactly on updated entries), transport chunk
identifiers, and the optional attached `diff`. -/
structure PushedFile where
  path : String
  checksum : String
  size : Nat
  origin_checksum : Option String := none
  chunks : List Nat := []
  diff : Option PushDiffMeta := none
deriving DecidableEq, Repr

/-- Size and checksum of a written file as a function of its content
(`os.path.getsize` / `generate_checksum` from the absent `utils` module,
modelled from the spec: a fixed content hash and byte size). -/
structure ContentMeta where
  size : Nat → Nat
  checksum : Nat → String

/-- `file['chunks'] = [str(uuid.uuid4()) for i in range(math.ceil(size /
UPLOAD_CHUNK_SIZE))]` over a list of files. `uuid.uuid4()` is modelled as a
fresh-token generator threaded as a counter: each call yields the next
token, so identifiers of distinct calls are distinct (the idealization of
UUID generation). Returns the files with chunks and the next counter. -/
def allocChunks (chunkSize : Nat) : Nat → List PushedFile → List PushedFile × Nat
  | ctr, [] => ([], ctr)
  | ctr, f :: rest =>
    let n := ceilDiv f.size chunkSize
    let f' := { f with chunks := (List.range n).map (fun i => ctr + i) }
    let (rest', ctr') := allocChunks chunkSize (ctr + n) rest
    (f' :: rest', ctr')

/-- Per-file body of the geodiff loop of `get_push_changes` (lines 271-297):
for a versioned updated file, create a changeset from the basefile to the
working file (their contents are read from `fs`), and if it has changes,
rewrite checksum to `origin_checksum`, re-chunk against the diff size and
attach the `diff` fingerprint. A library error from `create_changeset` or
`has_changes` is swallowed (`except ... pass`) leaving the file unchanged;
`has_changes = False` marks the file `not_updated`. The transient changeset
file `.mergin/<path>-diff-<uuid>` is modelled by its content directly (it is
freshly named and read back immediately). Returns the (possibly rewritten)
file, the `not_updated` flag, and the next fresh-token counter. -/
def pushProcessUpdated (gd : GeoDiff) (cm : ContentMeta) (fs : Fs)
    (chunkSize : Nat) (ctr : Nat) (f : PushedFile) : PushedFile × Bool × Nat :=
  if !is_versioned_path f.path then (f, false, ctr)
  else
    let diff_id := ctr
    let diff_name := f.path ++ "-diff-" ++ toString diff_id
    match gd.create_changeset (fsGet fs (Loc.mirror f.path))
        (fsGet fs (Loc.work f.path)) with
    | none => (f, false, ctr + 1)
    | some d =>
      match gd.has_changes (some d) with
      | none => (f, false, ctr + 1)
      | some false => (f, true, ctr + 1)
      | some true =>
        let diff_size := cm.size d
        let n := ceilDiv diff_size chunkSize
        ({ f with
            -- updated entries always carry `origin_checksum` (set by
            -- `compare_file_sets`); the default branch is never taken
            checksum := f.origin_checksum.getD f.checksum,
            chunks := (List.range n).map (fun i => ctr + 1 + i),
            diff := some ⟨diff_name, cm.checksum d, diff_size⟩ },
          false, ctr + 1 + n)

/-- The geodiff loop over the `updated` group, threading the fresh-token
counter; returns each processed file with its `not_updated` flag. -/
def pushUpdatedLoop (gd : GeoDiff) (cm : ContentMeta) (fs : Fs)
    (chunkSize : Nat) : Nat → List PushedFile → List (PushedFile × Bool) × Nat
  | ctr, [] => ([], ctr)
  | ctr, f :: rest =>
    let u := pushProcessUpdated gd cm fs chunkSize ctr f
    let R := pushUpdatedLoop gd cm fs chunkSize u.2.2 rest
    ((u.1, u.2.1) :: R.1, R.2)

structure PushChanges where
  renamed : List RenamedMeta
  added : List PushedFile
  removed : List FileMeta
  updated : List PushedFile
deriving DecidableEq, Repr

/-- `MerginProject.get_push_changes`. `origin` is `self.metadata['files']`
and `inventory` the result of `self.inspect_files()` (the working-tree
fingerprints). Chunks are allocated over `changes['added'] +
changes['updated']` (allocating over the concatenation equals allocating
over the two lists with the counter threaded through). When the diff engine
is available the `updated` group is post-processed and files found without
real changes are dropped via python's `f not in not_updated` membership
filter. -/
def get_push_changes (gd : Option GeoDiff) (cm : ContentMeta) (fs : Fs)
    (chunkSize : Nat) (origin inventory : List FileMeta) (ctr : Nat) :
    PushChanges × Nat :=
  let ch := compare_file_sets origin inventory
  let added0 : List PushedFile :=
    ch.added.map (fun f => { path := f.path, checksum := f.checksum, size := f.size })
  let updated0 : List PushedFile :=
    ch.updated.map (fun f =>
      { path := f.path, checksum := f.checksum, size := f.size,
        origin_checksum := some f.origin_checksum })
  let A := allocChunks chunkSize ctr added0
  let B := allocChunks chunkSize A.2 updated0
  match gd with
  | none =>
    ({ renamed := ch.renamed, added := A.1, removed := ch.removed,
       updated := B.1 }, B.2)
  | some g =>
    let P := pushUpdatedLoop g cm fs chunkSize B.2 B.1
    let not_updated := (P.1.filter (fun x => x.2)).map (fun x => x.1)
    let updated2 :=
      (P.1.map (fun x => x.1)).filter (fun f => !not_updated.contains f)
    ({ renamed := ch.renamed, added := A.1, removed := ch.removed,
       updated := updated2 }, P.2)

/-! ### Conflict copies (`backup_file`, lines 454-472) -/

/-- The k-th candidate name tried by `backup_file`:
`<file>_conflict_copy`, then `<file>_conflict_copy2`, `_conflict_copy3`, ... -/
def conflictName (file : String) (k : Nat) : String :=
  if k = 0 then file ++ "_conflict_copy"
  else file ++ "_conflict_copy" ++ toString (k + 1)

/-- Index of the first free candidate name. The python `while
os.path.exists` loop terminates because the store is finite: among the first
`fs.length + 1` candidates one is surely free, so the `getD` fallback (kept
only to make the search total) is never the result. -/
def firstFreeConflict (fs : Fs) (file : String) : Nat :=
  ((List.range (fs.length + 1)).find?
    (fun k => (fsGet fs (Loc.work (conflictName file k))).isNone)).getD fs.length

/-- `MerginProject.backup_file`: create a conflict copy of working-tree
`file` next to it under the first free `_conflict_copy` name; returns the
new store and the chosen location (`none` when the source file is missing —
python returns `None`). -/
def backup_file (file : String) (fs : Fs) : Fs × Option Loc :=
  if (fsGet fs (Loc.work file)).isNone then (fs, none)
  else
    let l := Loc.work (conflictName file (firstFreeConflict fs file))
    (fsCopy (Loc.work file) l fs, some l)

/-! ### Apply-pull, structured `updated` branch (lines 356-393)

For a versioned `updated` plan entry whose path is locally modified,
`apply_pull_changes` backs up the server download, snapshots the rebased
local content (or the raw file), attempts the three-way rebase, and on any
geodiff error reverts the working file, produces a conflict copy and adopts
the server version for both the file and its basefile. -/

/-- Recovery path of the rebase `except` block (lines 381-393): revert
`dest` from the local backup, create the conflict copy, restore `basefile`
and `dest` from the untouched server snapshot, and drop `-wal`/`-shm`
sidecars. Returns the store and the conflicts recorded (python appends the
result of `backup_file`, which would be `None` for a vanished file). -/
def pullRebaseRecover (p : String) (fs : Fs) : Fs × List (Option Loc) :=
  let dest := Loc.work p
  let basefile := Loc.mirror p
  let f_server_backup := Loc.temp (p ++ "-server_backup")
  let f_conflict_file := Loc.temp (p ++ "-local_backup")
  let fsA := fsCopy f_conflict_file dest fs
  let bk := backup_file p fsA
  let fsC := fsCopy f_server_backup basefile bk.1
  let fsD := fsCopy f_server_backup dest fsC
  let fsE := if (fsGet fsD (Loc.work (p ++ "-wal"))).isSome then
      fsRemove (Loc.work (p ++ "-wal")) fsD else fsD
  let fsF := if (fsGet fsE (Loc.work (p ++ "-shm"))).isSome then
      fsRemove (Loc.work (p ++ "-shm")) fsE else fsE
  (fsF, [bk.2])

/-- The "rebase magic" `try` block (lines 376-393) run on the store `fs2`
left by the local-backup phase: create the server diff, rebase the local
file onto it and re-apply the server diff to the basefile; any library or
conflict error enters the recovery path. -/
def applyPullRebaseTry (gd : GeoDiff) (p : String) (fs2 : Fs) :
    Fs × List (Option Loc) :=
  let src := Loc.temp p
  let dest := Loc.work p
  let basefile := Loc.mirror p
  let server_diff := Loc.temp (p ++ "-server_diff")
  match gd.create_changeset (fsGet fs2 basefile) (fsGet fs2 src) with
  | none => pullRebaseRecover p fs2
  | some sd =>
    let fs3 := fsWrite server_diff sd fs2
    match gd.rebase (fsGet fs3 basefile) (fsGet fs3 src) (fsGet fs3 dest) with
    | none => pullRebaseRecover p fs3
    | some newLocal =>
      let fs4 := fsWrite dest newLocal fs3
      match gd.apply_changeset (fsGet fs4 basefile) (fsGet fs4 server_diff) with
      | none => pullRebaseRecover p fs4
      | some newBase => (fsWrite basefile newBase fs4, [])

/-- The body of `apply_pull_changes` for one structured `updated` entry with
locally modified path `p` (lines 357-393). `Loc.temp p` holds the file
downloaded from the server (`src`), `Loc.work p` the locally modified file
(`dest`) and `Loc.mirror p` its basefile. Returns the resulting store and
the conflict-copy paths recorded for this entry. -/
def apply_pull_updated_versioned (gd : GeoDiff) (p : String) (fs : Fs) :
    Fs × List (Option Loc) :=
  let src := Loc.temp p
  let dest := Loc.work p
  let basefile := Loc.mirror p
  let local_diff := Loc.temp (p ++ "-local_diff")
  let f_server_backup := Loc.temp (p ++ "-server_backup")
  let f_conflict_file := Loc.temp (p ++ "-local_backup")
  -- temporary backup of the file pulled from server, for recovery
  let fs1 := fsCopy src f_server_backup fs
  -- temp backup (ideally basefile + local changes, via geodiff) of the
  -- locally modified file; on any library error a raw copy of `dest`
  let fs2 :=
    match gd.create_changeset (fsGet fs1 basefile) (fsGet fs1 dest) with
    | none => fsCopy dest f_conflict_file fs1
    | some ld =>
      let fsA := fsWrite local_diff ld fs1
      let fsB := fsCopy basefile f_conflict_file fsA
      match gd.apply_changeset (fsGet fsB f_conflict_file) (fsGet fsB local_diff) with
      | none => fsCopy dest f_conflict_file fsB
      | some c => fsWrite f_conflict_file c fsB
  -- rebase magic; on any library/conflict error run the recovery path
  applyPullRebaseTry gd p fs2

/-- Whether the "rebase magic" `try` block fails for basefile content `b`,
server content `srv` and local content `d` (all three files present):
`create_changeset(basefile, src)` errors, or `rebase` errors, or the final
`apply_changeset(basefile, server_diff)` errors. -/
def rebaseFails (gd : GeoDiff) (b srv d : Nat) : Prop :=
  match gd.create_changeset (some b) (some srv) with
  | none => True
  | some sd =>
    match gd.rebase (some b) (some srv) (some d) with
    | none => True
    | some _ => gd.apply_changeset (some b) (some sd) = none

/-- Content of the local backup (`f_conflict_file`) the code actually
produces from basefile content `b` and working content `d`: the basefile
with the local changeset applied when the changeset could be created *and*
applied, else a raw snapshot of the working file. -/
def localConflictContent (gd : GeoDiff) (b d : Nat) : Nat :=
  match gd.create_changeset (some b) (some d) with
  | none => d
  | some ld =>
    match gd.apply_changeset (some b) (some ld) with
    | none => d
    | some c => c

/-- The conflict-copy content as claimed: base plus local changes whenever
the local changeset could be *created* (regardless of whether applying it
succeeded), else the raw working-file snapshot. -/
def claimedConflictContent (gd : GeoDiff) (b d : Nat) : Option Nat :=
  match gd.create_changeset (some b) (some d) with
  | none => some d
  | some ld => gd.apply_changeset (some b) (some ld)

/-! ### Apply-push (`apply_push_changes` / `apply_diffs`, lines 419-453, 474-496) -/

/-- `move_file` from the client's absent `utils` module. Modelled from the
spec: "`move(src, dst)` performs a rename (falling back to copy+delete
across devices)"; moving a missing source raises and is modelled as a no-op
never exercised by the theorems. -/
def move_file (src dst : Loc) (fs : Fs) : Fs :=
  match fsGet fs src with
  | some c => fsWrite dst c (fsRemove src fs)
  | none => fs

/-- `MerginProject.apply_diffs basefile diffs`: apply each changeset in turn
to the basefile, stopping at the first library error; returns the store and
whether an error occurred (the source returns the error message). The
`is_versioned_file` guard receives the absolute basefile path, whose
basename — hence extension — equals that of the relative path used here. -/
def apply_diffs (g : GeoDiff) (basePath : String) (diffPaths : List String)
    (fs : Fs) : Fs × Bool :=
  if !is_versioned_file (some g) basePath then (fs, false)
  else go fs diffPaths
where
  go : Fs → List String → Fs × Bool
    | fs, [] => (fs, false)
    | fs, dp :: rest =>
      match g.apply_changeset (fsGet fs (Loc.mirror basePath))
          (fsGet fs (Loc.mirror dp)) with
      | some c => go (fsWrite (Loc.mirror basePath) c fs) rest
      | none => (fs, true)

/-- `MerginProject.apply_push_changes`: reconcile the basefile mirror after
a push. Returns immediately when the diff engine is unavailable; otherwise
walks the change groups in dict insertion order (renamed, added, removed,
updated), mutating only basefiles of versioned paths. -/
def apply_push_changes (gd : Option GeoDiff) (changes : PushChanges) (fs : Fs) :
    Fs :=
  match gd with
  | none => fs
  | some g =>
    let fs1 := changes.renamed.foldl (fun fs m =>
      if is_versioned_path m.new_path then
        move_file (Loc.mirror m.path) (Loc.mirror m.new_path) fs
      else fs) fs
    let fs2 := changes.added.foldl (fun fs f =>
      if is_versioned_path f.path then
        fsCopy (Loc.work f.path) (Loc.mirror f.path) fs
      else fs) fs1
    let fs3 := changes.removed.foldl (fun fs f =>
      if is_versioned_path f.path then fsRemove (Loc.mirror f.path) fs
      else fs) fs2
    changes.updated.foldl (fun fs f =>
      if is_versioned_path f.path then
        match f.diff with
        | none => fs
        | some dm =>
          match apply_diffs g f.path [dm.path] fs with
          | (fs', true) => fsRemove (Loc.mirror f.path) fs'
          | (fs', false) => fs'
      else fs) fs3

/-! ## Claims -/

/-- C10: when the structured-diff capability is unavailable (`self.geodiff`
is `None`), `is_versioned_file` returns false for every path regardless of
extension, and `apply_push_changes` returns immediately without any
filesystem mutation — in particular none of the basefile moves/deletions its
versioned branches otherwise perform. -/
theorem c10_no_geodiff_no_versioning_no_push_apply :
    (∀ p, is_versioned_file none p = false) ∧
    (∀ (changes : PushChanges) (fs : Fs), apply_push_changes none changes fs = fs) :=
  ⟨fun _ => rfl, fun _ _ => rfl⟩

/-- C2 (code evaluation): on `origin = [a, b]` (equal checksum `h` and size)
and `current = [c]`, `compare_file_sets` pairs *both* removals with the same
candidate `c` — the guard `all(f["path"] != mf["path"] for mf in moved)`
compares the candidate's path with the *old* paths of earlier matches
(which, coming from `removed`, never occur in `current`), so it never
excludes an already-claimed candidate, and the search runs over all of
`current` rather than over `added`. -/
theorem c2_duplicate_rename_pairing :
    compare_file_sets [⟨"a", "h", 1⟩, ⟨"b", "h", 1⟩] [⟨"c", "h", 1⟩] =
      { renamed := [⟨"a", "h", 1, "c"⟩, ⟨"b", "h", 1, "c"⟩],
        added := [], removed := [], updated := [] } := by
  decide

/-- C8: on singleton inputs `origin = [(a, h, s)]`, `current = [(b, h, s)]`
with `a ≠ b`, the change detector reports exactly one rename `a → b` and
empty added/removed/updated groups. -/
theorem c8_singleton_rename (a b h : String) (s : Nat) (hab : a ≠ b) :
    compare_file_sets [⟨a, h, s⟩] [⟨b, h, s⟩] =
      { renamed := [⟨a, h, s, b⟩], added := [], removed := [], updated := [] } := by
  have hba : (b == a) = false := by simp [Ne.symm hab]
  have hab' : (a == b) = false := by simp [hab]
  simp [compare_file_sets, movedList, movedStep, find, pathLookup, List.find?, hba, hab']

/-- C8 witness: the singleton rename at concrete inputs. -/
theorem c8_singleton_rename_witness :
    ("a" : String) ≠ "b" ∧
      compare_file_sets [⟨"a", "h", 6⟩] [⟨"b", "h", 6⟩] =
        { renamed := [⟨"a", "h", 6, "b"⟩], added := [], removed := [],
          updated := [] } :=
  ⟨by decide, c8_singleton_rename "a" "b" "h" 6 (by decide)⟩

/-- Does the file *name* end with one of the blacklisted suffixes (the
reading of C9's "whose name ends with one of the suffixes")? -/
def nameSuffixHit (file : String) : Bool :=
  ["-shm", "-wal", "~", "pyc", "swap"].any (fun suf => suf.data.isSuffixOf file.data)

/-- C9 as stated: every file whose *name* ends with a blacklisted suffix (or
is one of the exact names) is ignored by `ignore_file` and omitted from the
inventory of every directory it appears in. -/
def C9Stated : Prop :=
  ∀ file, (nameSuffixHit file = true ∨ file = ".DS_Store" ∨ file = ".directory") →
    ignore_file file = true ∧
      ∀ (files : List String) (subdirs : List (String × DirTree)),
        file ∉ inspectTree (DirTree.node files subdirs)

/-- C9 counterexample: `foo-wal` ends with `-wal` but has no extension under
`os.path.splitext` (no dot), so the suffix test — which `ignore_file` runs
on the *extension* only — never fires and the file is not ignored. -/
theorem c9_counterexample : ¬ C9Stated := fun h =>
  absurd (h "foo-wal" (Or.inl (by decide))).1 (by decide)

/-- Every element of `inspectSubdirs subs` comes from a non-`.mergin` child
directory, prefixed with its name. -/
theorem inspectSubdirs_mem (subs : List (String × DirTree)) (p : String)
    (hp : p ∈ inspectSubdirs subs) :
    ∃ d t q, (d, t) ∈ subs ∧ d ≠ ".mergin" ∧ q ∈ inspectTree t ∧
      p = d ++ "/" ++ q := by
  induction subs with
  | nil => simp [inspectSubdirs] at hp
  | cons e rest ih =>
    obtain ⟨d, t⟩ := e
    simp only [inspectSubdirs, List.mem_append] at hp
    rcases hp with hp | hp
    · by_cases hd : d = ".mergin"
      · simp [hd] at hp
      · simp only [hd, if_false, List.mem_map] at hp
        obtain ⟨q, hq, rfl⟩ := hp
        exact ⟨d, t, q, by simp, hd, hq, rfl⟩
    · obtain ⟨d', t', q, hmem, hne, hq, rfl⟩ := ih hp
      exact ⟨d', t', q, by simp [hmem], hne, hq, rfl⟩

/-- Every inventoried path decomposes into directory components, none of
them `.mergin`, and a basename that `ignore_file` does not blacklist. -/
theorem inspectTree_mem (t : DirTree) (p : String) (hp : p ∈ inspectTree t) :
    ∃ dirs name, p = joinPath dirs name ∧ ignore_file name = false ∧
      ".mergin" ∉ dirs := by
  suffices H : ∀ n (t : DirTree), sizeOf t ≤ n → ∀ p, p ∈ inspectTree t →
      ∃ dirs name, p = joinPath dirs name ∧ ignore_file name = false ∧
        ".mergin" ∉ dirs from H (sizeOf t) t le_rfl p hp
  intro n
  induction n with
  | zero =>
    intro t ht
    obtain ⟨files, subs⟩ := t
    simp at ht
  | succ n ih =>
    intro t ht p hp
    obtain ⟨files, subs⟩ := t
    simp only [inspectTree, List.mem_append] at hp
    rcases hp with hp | hp
    · rw [List.mem_filter] at hp
      refine ⟨[], p, rfl, ?_, by simp⟩
      simpa using hp.2
    · obtain ⟨d, t', q, hmem, hne, hq, rfl⟩ := inspectSubdirs_mem subs p hp
      have hsz : sizeOf t' ≤ n := by
        have h1 := List.sizeOf_lt_of_mem hmem
        have h2 : sizeOf (d, t') = 1 + sizeOf d + sizeOf t' := by simp
        have h3 : sizeOf (DirTree.node files subs) = 1 + sizeOf files + sizeOf subs := by
          simp
        omega
      obtain ⟨dirs, name, heq, hig, hdirs⟩ := ih t' hsz q hq
      refine ⟨d :: dirs, name, ?_, hig, ?_⟩
      · show d ++ "/" ++ q = joinPath (d :: dirs) name
        rw [show joinPath (d :: dirs) name = d ++ "/" ++ joinPath dirs name from rfl,
          heq]
      · intro hc
        rcases List.mem_cons.mp hc with hc | hc
        · exact hne hc.symm
        · exact hdirs hc

/-- C9 (amended): every file whose `os.path.splitext` *extension* is
non-empty and ends with one of `-shm`, `-wal`, `~`, `pyc`, `swap`, and every
file named exactly `.DS_Store` or `.directory`, is blacklisted by
`ignore_file`; `inspect_files` inventories only paths whose basename is not
blacklisted and whose directory components never include the `.mergin` meta
directory. -/
theorem c9_ignore_rules_and_inventory :
    (∀ (file suf : String) (pre : List Char),
      suf ∈ ["-shm", "-wal", "~", "pyc", "swap"] → splitextExt file ≠ "" →
      (splitextExt file).data = pre ++ suf.data → ignore_file file = true) ∧
    (ignore_file ".DS_Store" = true ∧ ignore_file ".directory" = true) ∧
    (∀ (t : DirTree) (p : String), p ∈ inspectTree t →
      ∃ dirs name, p = joinPath dirs name ∧ ignore_file name = false ∧
        ".mergin" ∉ dirs) := by
  refine ⟨?_, ⟨by decide, by decide⟩, inspectTree_mem⟩
  intro file suf pre hmem hne hext
  have hsearch : ignore_ext_search (splitextExt file) = true := by
    unfold ignore_ext_search
    rw [List.any_eq_true]
    refine ⟨suf, hmem, ?_⟩
    rw [List.isSuffixOf_iff_suffix]
    exact ⟨pre, hext.symm⟩
  unfold ignore_file
  simp [hne, hsearch]

/-- C9 witness: `data.gpkg-wal` has extension `.gpkg-wal`, which ends with
`-wal`, and is ignored. -/
theorem c9_ignore_rules_witness :
    ("-wal" : String) ∈ ["-shm", "-wal", "~", "pyc", "swap"] ∧
    splitextExt "data.gpkg-wal" ≠ "" ∧
    (splitextExt "data.gpkg-wal").data = ".gpkg".data ++ "-wal".data ∧
    ignore_file "data.gpkg-wal" = true ∧
    "sub/a.txt" ∈ inspectTree
      (DirTree.node ["map.gpkg-shm"] [("sub", DirTree.node ["a.txt"] []),
        (".mergin", DirTree.node ["mergin.json"] [])]) ∧
    (∃ dirs name, ("sub/a.txt" : String) = joinPath dirs name ∧
      ignore_file name = false ∧ (".mergin" : String) ∉ dirs) :=
  ⟨by decide, by decide, by decide,
    c9_ignore_rules_and_inventory.1 "data.gpkg-wal" "-wal" ".gpkg".data
      (by decide) (by decide) (by decide),
    by decide,
    c9_ignore_rules_and_inventory.2.2
      (DirTree.node ["map.gpkg-shm"] [("sub", DirTree.node ["a.txt"] []),
        (".mergin", DirTree.node ["mergin.json"] [])]) "sub/a.txt" (by decide)⟩

/-! ### Pull-planner lemmas -/

/-- The `is_updated` flag computed by the history walk: it ends up true iff
it started true or some entry is strictly later than the local version. -/
theorem pullWalk_isUpdated (lv : Nat) (hist : List (String × Option DiffMeta))
    (diffs : List String) (dsz : Nat) (upd : Bool) :
    (pullWalk lv hist diffs dsz upd).2.2 =
      (upd || hist.any (fun e => decide (lv < int_version e.1))) := by
  induction hist generalizing diffs dsz upd with
  | nil => simp [pullWalk]
  | cons e rest ih =>
    obtain ⟨k, v⟩ := e
    by_cases hk : int_version k ≤ lv
    · have hk' : ¬ lv < int_version k := Nat.not_lt.mpr hk
      simp [pullWalk, hk, hk', ih]
    · have hk' : lv < int_version k := Nat.not_le.mp hk
      cases v with
      | some d => simp [pullWalk, hk, hk', ih]
      | none => simp [pullWalk, hk, hk']

theorem laterEntries_cons (lv : String) (k : String) (v : Option DiffMeta)
    (rest : List (String × Option DiffMeta)) :
    laterEntries lv ((k, v) :: rest) =
      if int_version lv < int_version k then (k, v) :: laterEntries lv rest
      else laterEntries lv rest := by
  simp [laterEntries, List.filter_cons]

theorem noForce_of_cons {lv k v rest} (h : noForce lv ((k, v) :: rest)) :
    noForce lv rest := by
  intro e he
  apply h
  rw [laterEntries_cons]
  split
  · exact List.mem_cons_of_mem _ he
  · exact he

/-- The history walk under a force-free later history: the walk appends
exactly the later entries' diff paths and accumulates their total size. -/
theorem pullWalk_noForce (lv : String) (hist : List (String × Option DiffMeta))
    (diffs : List String) (dsz : Nat) (upd : Bool) (hnf : noForce lv hist) :
    pullWalk (int_version lv) hist diffs dsz upd =
      (diffs ++ laterDiffPaths lv hist, dsz + laterDiffsSize lv hist,
        upd || hist.any (fun e => decide (int_version lv < int_version e.1))) := by
  induction hist generalizing diffs dsz upd with
  | nil => simp [pullWalk, laterDiffPaths, laterDiffsSize, laterEntries]
  | cons e rest ih =>
    obtain ⟨k, v⟩ := e
    by_cases hk : int_version k ≤ int_version lv
    · have hk' : ¬ int_version lv < int_version k := Nat.not_lt.mpr hk
      have hnf' : noForce lv rest := noForce_of_cons hnf
      simp [pullWalk, hk, hk', ih _ _ _ hnf', laterDiffPaths, laterDiffsSize,
        laterEntries_cons]
    · have hk' : int_version lv < int_version k := Nat.not_le.mp hk
      cases v with
      | some d =>
        have hnf' : noForce lv rest := noForce_of_cons hnf
        rw [pullWalk]
        simp only [hk, if_false]
        rw [ih _ _ _ hnf']
        simp [laterDiffPaths, laterDiffsSize, laterEntries_cons, hk',
          List.append_assoc]
        omega
      | none =>
        exfalso
        have : (k, (none : Option DiffMeta)) ∈ laterEntries lv ((k, none) :: rest) := by
          rw [laterEntries_cons]
          simp [hk']
        simpa using hnf _ this

theorem processPullFile_eq_update (sl : Nat) (lv : String) (f : PullFile) :
    ∃ od, (processPullFile sl lv f).1 = { f with diffs := od } := by
  unfold processPullFile
  by_cases hv : is_versioned_path f.path
  · simp only [hv, Bool.not_true, Bool.false_eq_true, if_false]
    by_cases hu : (pullWalk (int_version lv) f.history [] 0 false).2.2
    · simp only [hu, if_true]
      by_cases hc : (!(pullWalk (int_version lv) f.history [] 0 false).1.isEmpty &&
          decide (sl < f.size) &&
          decide (2 * (pullWalk (int_version lv) f.history [] 0 false).2.1 < f.size)) = true
      · exact ⟨some (pullWalk (int_version lv) f.history [] 0 false).1, by rw [if_pos hc]⟩
      · exact ⟨f.diffs, by rw [if_neg hc]⟩
    · simp only [hu, Bool.false_eq_true, if_false]
      exact ⟨f.diffs, rfl⟩
  · simp only [hv, Bool.not_false, if_true]
    exact ⟨f.diffs, rfl⟩

theorem processPullFile_path (sl : Nat) (lv : String) (f : PullFile) :
    (processPullFile sl lv f).1.path = f.path := by
  obtain ⟨od, h⟩ := processPullFile_eq_update sl lv f
  rw [h]

/-- Two pull files of a path-nodup list with the same path are equal. -/
theorem pullFile_eq_of_path {l : List PullFile}
    (hnd : (l.map (fun f => f.path)).Nodup) {f g : PullFile}
    (hf : f ∈ l) (hg : g ∈ l) (h : f.path = g.path) : f = g :=
  List.inj_on_of_nodup_map hnd hf hg h

/-- A file processed without the `not_updated` mark survives the final
filter of `get_pull_changes_updated`. -/
theorem mem_pull_result {sl : Nat} {lv : String} {updated : List PullFile}
    (hnd : (updated.map (fun f => f.path)).Nodup) {f : PullFile}
    (hf : f ∈ updated) (hkeep : (processPullFile sl lv f).2 = false) :
    (processPullFile sl lv f).1 ∈ get_pull_changes_updated true sl lv updated := by
  unfold get_pull_changes_updated
  simp only [Bool.not_true, Bool.false_eq_true, if_false]
  rw [List.mem_filter]
  constructor
  · exact List.mem_map_of_mem _ (List.mem_map_of_mem _ hf)
  · rw [Bool.not_eq_eq_eq_not, Bool.not_true]
    suffices hmem : (processPullFile sl lv f).1 ∉
        (List.filter (fun x => x.2) (List.map (processPullFile sl lv) updated)).map
          (fun x => x.1) by simpa using hmem
    intro hmem
    obtain ⟨x, hxf, hx1⟩ := List.mem_map.mp hmem
    obtain ⟨hxmem, hx2⟩ := List.mem_filter.mp hxf
    obtain ⟨f', hf', hxeq⟩ := List.mem_map.mp hxmem
    -- the marked source file f' has the same path as f, hence equals f
    have hpath : f'.path = f.path := by
      have h1 : (processPullFile sl lv f').1.path = f'.path := processPullFile_path ..
      have h2 : (processPullFile sl lv f).1.path = f.path := processPullFile_path ..
      rw [hxeq, hx1, h2] at h1
      exact h1.symm
    have heq : f' = f := pullFile_eq_of_path hnd hf' hf hpath
    rw [← hxeq, heq] at hx2
    simp only [hkeep] at hx2
    exact Bool.false_ne_true hx2

theorem processPullFile_of_flag {sl : Nat} {lv : String} {f : PullFile}
    (h : (processPullFile sl lv f).2 = true) :
    processPullFile sl lv f = (f, true) := by
  unfold processPullFile at h ⊢
  by_cases hv : is_versioned_path f.path
  · simp only [hv, Bool.not_true, Bool.false_eq_true, if_false] at h ⊢
    by_cases hu : (pullWalk (int_version lv) f.history [] 0 false).2.2
    · simp [hu] at h
    · simp [hu]
  · simp [hv] at h

/-- A file marked `not_updated` has no representative (by path) in the
result of `get_pull_changes_updated`. -/
theorem pull_dropped {sl : Nat} {lv : String} {updated : List PullFile}
    (hnd : (updated.map (fun f => f.path)).Nodup) {f : PullFile}
    (hf : f ∈ updated) (hflag : (processPullFile sl lv f).2 = true) :
    ∀ g ∈ get_pull_changes_updated true sl lv updated, g.path ≠ f.path := by
  intro g hg hpath
  unfold get_pull_changes_updated at hg
  simp only [Bool.not_true, Bool.false_eq_true, if_false] at hg
  obtain ⟨hgmem, hgc⟩ := List.mem_filter.mp hg
  obtain ⟨x, hxmem, hx1⟩ := List.mem_map.mp hgmem
  obtain ⟨f', hf', hxeq⟩ := List.mem_map.mp hxmem
  have hpath' : f'.path = f.path := by
    have h1 := processPullFile_path sl lv f'
    rw [hxeq, hx1] at h1
    rw [← h1, ← hpath]
  have heq : f' = f := pullFile_eq_of_path hnd hf' hf hpath'
  have hgf : g = f := by
    rw [← hx1, ← hxeq, heq, processPullFile_of_flag hflag]
  -- but f itself is in the not_updated list, so g is filtered out
  have hfmem : f ∈ (List.filter (fun x => x.2)
      (List.map (processPullFile sl lv) updated)).map (fun x => x.1) := by
    rw [List.mem_map]
    refine ⟨(f, true), ?_, rfl⟩
    rw [List.mem_filter]
    exact ⟨by rw [← processPullFile_of_flag hflag]; exact List.mem_map_of_mem _ hf,
      rfl⟩
  rw [hgf] at hgc
  simp only [Bool.not_eq_eq_eq_not, Bool.not_true] at hgc
  simp [hfmem] at hgc

/-- On a history with a force update after the local version, the walk
returns an empty diff list. -/
theorem pullWalk_force (lv : String) (hist : List (String × Option DiffMeta))
    (diffs : List String) (dsz : Nat) (upd : Bool) (hforce : ¬ noForce lv hist) :
    (pullWalk (int_version lv) hist diffs dsz upd).1 = [] := by
  induction hist generalizing diffs dsz upd with
  | nil =>
    exact absurd (fun e he => by simp [laterEntries] at he) hforce
  | cons e rest ih =>
    obtain ⟨k, v⟩ := e
    by_cases hk : int_version k ≤ int_version lv
    · have hf' : ¬ noForce lv rest := by
        intro h
        apply hforce
        intro e he
        rw [laterEntries_cons, if_neg (Nat.not_lt.mpr hk)] at he
        exact h e he
      simpa [pullWalk, hk] using ih _ _ _ hf'
    · cases v with
      | some d =>
        have hf' : ¬ noForce lv rest := by
          intro h
          apply hforce
          intro e he
          rw [laterEntries_cons, if_pos (Nat.not_le.mp hk)] at he
          rcases List.mem_cons.mp he with rfl | he'
          · simp
          · exact h e he'
        simpa [pullWalk, hk] using ih _ _ _ hf'
      | none => simp [pullWalk, hk]

/-- C7: in `get_pull_changes`, a structured `updated` file whose server
history has no entry with version strictly greater than the local metadata
version (versions compared as the integers of their `v<N>` tokens) is
dropped from the returned `updated` group; a file with at least one later
entry is kept. -/
theorem c7_pull_drops_files_without_later_history (sl : Nat) (lv : String)
    (updated : List PullFile) (hnd : (updated.map (fun f => f.path)).Nodup)
    (f : PullFile) (hf : f ∈ updated) (hv : is_versioned_path f.path = true) :
    (∃ g ∈ get_pull_changes_updated true sl lv updated, g.path = f.path) ↔
      ∃ e ∈ f.history, int_version lv < int_version e.1 := by
  have hupd : (pullWalk (int_version lv) f.history [] 0 false).2.2 =
      f.history.any (fun e => decide (int_version lv < int_version e.1)) := by
    rw [pullWalk_isUpdated]
    simp
  constructor
  · rintro ⟨g, hg, hpath⟩
    by_contra hno
    have hany : f.history.any (fun e => decide (int_version lv < int_version e.1))
        = false := by
      rw [Bool.eq_false_iff]
      intro hcon
      rw [List.any_eq_true] at hcon
      obtain ⟨e, he, hd⟩ := hcon
      exact hno ⟨e, he, of_decide_eq_true hd⟩
    have hflag : (processPullFile sl lv f).2 = true := by
      unfold processPullFile
      simp [hv, hupd, hany]
    exact pull_dropped hnd hf hflag g hg hpath
  · rintro ⟨e, he, hlt⟩
    have hany : f.history.any (fun e => decide (int_version lv < int_version e.1))
        = true := by
      rw [List.any_eq_true]
      exact ⟨e, he, by simpa using hlt⟩
    have hflag : (processPullFile sl lv f).2 = false := by
      unfold processPullFile
      simp [hv, hupd, hany]
    exact ⟨_, mem_pull_result hnd hf hflag, processPullFile_path ..⟩

/-- C7 witness: a versioned file with one later history entry is kept, at
concrete inputs. -/
theorem c7_witness :
    (([{ path := "a.gpkg", checksum := "h", size := 9,
          history := [("v2", some ⟨"a.gpkg-diff", 4⟩)] }] :
        List PullFile).map (fun f => f.path)).Nodup ∧
    ({ path := "a.gpkg", checksum := "h", size := 9,
        history := [("v2", some ⟨"a.gpkg-diff", 4⟩)] } : PullFile) ∈
      ([{ path := "a.gpkg", checksum := "h", size := 9,
          history := [("v2", some ⟨"a.gpkg-diff", 4⟩)] }] : List PullFile) ∧
    is_versioned_path "a.gpkg" = true ∧
    ((∃ g ∈ get_pull_changes_updated true 0 "v1"
        [{ path := "a.gpkg", checksum := "h", size := 9,
           history := [("v2", some ⟨"a.gpkg-diff", 4⟩)] }], g.path = "a.gpkg") ↔
      ∃ e ∈ ([("v2", some (⟨"a.gpkg-diff", 4⟩ : DiffMeta))] :
          List (String × Option DiffMeta)), int_version "v1" < int_version e.1) :=
  ⟨by decide, by decide, by decide,
    c7_pull_drops_files_without_later_history 0 "v1"
      [{ path := "a.gpkg", checksum := "h", size := 9,
         history := [("v2", some ⟨"a.gpkg-diff", 4⟩)] }] (by decide)
      { path := "a.gpkg", checksum := "h", size := 9,
        history := [("v2", some ⟨"a.gpkg-diff", 4⟩)] } (by decide) (by decide)⟩

/-- C4: in `get_pull_changes`, a structured `updated` file with at least one
history entry later than the local version receives a `diffs` list iff no
later entry lacks a `diff` (no force update), the collected diff list is
non-empty, the file size exceeds the size limit (default 1 MiB, overridable
through `DIFFS_LIMIT_SIZE` — here the parameter `sl`), and the accumulated
diff sizes stay under half the file size; a force update in the window
forces a full-file fetch regardless of the size arithmetic. -/
theorem c4_pull_diff_vs_full_decision (sl : Nat) (lv : String)
    (updated : List PullFile) (hnd : (updated.map (fun f => f.path)).Nodup)
    (f : PullFile) (hf : f ∈ updated) (hv : is_versioned_path f.path = true)
    (hdn : f.diffs = none)
    (hl : ∃ e ∈ f.history, int_version lv < int_version e.1) :
    ∃ g ∈ get_pull_changes_updated true sl lv updated, g.path = f.path ∧
      (g.diffs = some (laterDiffPaths lv f.history) ∨ g.diffs = none) ∧
      (g.diffs.isSome = true ↔
        (noForce lv f.history ∧ laterDiffPaths lv f.history ≠ [] ∧
          sl < f.size ∧ 2 * laterDiffsSize lv f.history < f.size)) := by
  have hany : f.history.any (fun e => decide (int_version lv < int_version e.1))
      = true := by
    rw [List.any_eq_true]
    obtain ⟨e, he, hlt⟩ := hl
    exact ⟨e, he, by simpa using hlt⟩
  have hupd : (pullWalk (int_version lv) f.history [] 0 false).2.2 = true := by
    rw [pullWalk_isUpdated]
    simp [hany]
  have hflag : (processPullFile sl lv f).2 = false := by
    unfold processPullFile
    simp [hv, hupd]
  refine ⟨(processPullFile sl lv f).1, mem_pull_result hnd hf hflag,
    processPullFile_path .., ?_⟩
  have hg1 : (processPullFile sl lv f).1 =
      if (!(pullWalk (int_version lv) f.history [] 0 false).1.isEmpty &&
          decide (sl < f.size) &&
          decide (2 * (pullWalk (int_version lv) f.history [] 0 false).2.1 < f.size))
      then { f with diffs := some (pullWalk (int_version lv) f.history [] 0 false).1 }
      else f := by
    unfold processPullFile
    simp [hv, hupd]
  by_cases hnf : noForce lv f.history
  · have hw := pullWalk_noForce lv f.history [] 0 false hnf
    simp only [List.nil_append, Nat.zero_add, Bool.false_or] at hw
    rw [hw] at hg1
    by_cases hce : laterDiffPaths lv f.history = []
    · have hcf : ¬ ((!(laterDiffPaths lv f.history).isEmpty &&
          decide (sl < f.size) &&
          decide (2 * laterDiffsSize lv f.history < f.size)) = true) := by
        simp [hce]
      rw [if_neg hcf] at hg1
      rw [hg1, hdn]
      refine ⟨Or.inr rfl, ?_⟩
      simp only [Option.isSome_none, Bool.false_eq_true, false_iff]
      rintro ⟨-, hne, -, -⟩
      exact hne hce
    · by_cases hsl : sl < f.size
      · by_cases hhalf : 2 * laterDiffsSize lv f.history < f.size
        · have hct : (!(laterDiffPaths lv f.history).isEmpty &&
              decide (sl < f.size) &&
              decide (2 * laterDiffsSize lv f.history < f.size)) = true := by
            simp [hce, hsl, hhalf]
          rw [if_pos hct] at hg1
          rw [hg1]
          exact ⟨Or.inl rfl, by simp [hnf, hce, hsl, hhalf]⟩
        · have hcf : ¬ ((!(laterDiffPaths lv f.history).isEmpty &&
              decide (sl < f.size) &&
              decide (2 * laterDiffsSize lv f.history < f.size)) = true) := by
            simp [hhalf]
          rw [if_neg hcf] at hg1
          rw [hg1, hdn]
          refine ⟨Or.inr rfl, ?_⟩
          simp only [Option.isSome_none, Bool.false_eq_true, false_iff]
          rintro ⟨-, -, -, hh⟩
          exact hhalf hh
      · have hcf : ¬ ((!(laterDiffPaths lv f.history).isEmpty &&
            decide (sl < f.size) &&
            decide (2 * laterDiffsSize lv f.history < f.size)) = true) := by
          simp [hsl]
        rw [if_neg hcf] at hg1
        rw [hg1, hdn]
        refine ⟨Or.inr rfl, ?_⟩
        simp only [Option.isSome_none, Bool.false_eq_true, false_iff]
        rintro ⟨-, -, hs, -⟩
        exact hsl hs
  · have hw1 : (pullWalk (int_version lv) f.history [] 0 false).1 = [] :=
      pullWalk_force lv f.history [] 0 false hnf
    have hcf : ¬ ((!(pullWalk (int_version lv) f.history [] 0 false).1.isEmpty &&
        decide (sl < f.size) &&
        decide (2 * (pullWalk (int_version lv) f.history [] 0 false).2.1 < f.size))
          = true) := by
      rw [hw1]
      simp
    rw [if_neg hcf] at hg1
    rw [hg1, hdn]
    refine ⟨Or.inr rfl, ?_⟩
    simp only [Option.isSome_none, Bool.false_eq_true, false_iff]
    rintro ⟨hnf', -, -, -⟩
    exact hnf hnf'

/-- C4 witness: a 9-byte versioned file with one later diff entry of size 4
(limit 0): the diffs list is attached iff the documented condition holds. -/
theorem c4_witness :
    (([{ path := "b.gpkg", checksum := "h", size := 9,
          history := [("v2", some ⟨"b.gpkg-diff", 4⟩)] }] :
        List PullFile).map (fun f => f.path)).Nodup ∧
    is_versioned_path "b.gpkg" = true ∧
    (∃ g ∈ get_pull_changes_updated true 0 "v1"
        [{ path := "b.gpkg", checksum := "h", size := 9,
           history := [("v2", some ⟨"b.gpkg-diff", 4⟩)] }], g.path = "b.gpkg" ∧
      (g.diffs = some (laterDiffPaths "v1" [("v2", some ⟨"b.gpkg-diff", 4⟩)]) ∨
        g.diffs = none) ∧
      (g.diffs.isSome = true ↔
        (noForce "v1" [("v2", some ⟨"b.gpkg-diff", 4⟩)] ∧
          laterDiffPaths "v1" [("v2", some ⟨"b.gpkg-diff", 4⟩)] ≠ [] ∧
          0 < 9 ∧ 2 * laterDiffsSize "v1" [("v2", some ⟨"b.gpkg-diff", 4⟩)] < 9))) :=
  ⟨by decide, by decide,
    c4_pull_diff_vs_full_decision 0 "v1"
      [{ path := "b.gpkg", checksum := "h", size := 9,
         history := [("v2", some ⟨"b.gpkg-diff", 4⟩)] }] (by decide)
      { path := "b.gpkg", checksum := "h", size := 9,
        history := [("v2", some ⟨"b.gpkg-diff", 4⟩)] } (by decide) (by decide) rfl
      ⟨("v2", some ⟨"b.gpkg-diff", 4⟩), by decide, by decide⟩⟩

/-! ### Push-planner lemmas -/

/-- Exhaustive description of the outcomes of the per-file geodiff step of
push planning. -/
theorem pushProcessUpdated_cases (gd : GeoDiff) (cm : ContentMeta) (fs : Fs)
    (cs : Nat) (ctr : Nat) (f : PushedFile) :
    (is_versioned_path f.path = false ∧
      pushProcessUpdated gd cm fs cs ctr f = (f, false, ctr)) ∨
    (gd.create_changeset (fsGet fs (Loc.mirror f.path)) (fsGet fs (Loc.work f.path))
        = none ∧
      pushProcessUpdated gd cm fs cs ctr f = (f, false, ctr + 1)) ∨
    (∃ d, gd.create_changeset (fsGet fs (Loc.mirror f.path))
        (fsGet fs (Loc.work f.path)) = some d ∧
      gd.has_changes (some d) = none ∧
      pushProcessUpdated gd cm fs cs ctr f = (f, false, ctr + 1)) ∨
    (∃ d, gd.create_changeset (fsGet fs (Loc.mirror f.path))
        (fsGet fs (Loc.work f.path)) = some d ∧
      gd.has_changes (some d) = some false ∧
      pushProcessUpdated gd cm fs cs ctr f = (f, true, ctr + 1)) ∨
    (∃ d, gd.create_changeset (fsGet fs (Loc.mirror f.path))
        (fsGet fs (Loc.work f.path)) = some d ∧
      gd.has_changes (some d) = some true ∧
      pushProcessUpdated gd cm fs cs ctr f =
        ({ f with
            checksum := f.origin_checksum.getD f.checksum,
            chunks := (List.range (ceilDiv (cm.size d) cs)).map
              (fun i => ctr + 1 + i),
            diff := some ⟨f.path ++ "-diff-" ++ toString ctr, cm.checksum d,
              cm.size d⟩ },
          false, ctr + 1 + ceilDiv (cm.size d) cs)) := by
  unfold pushProcessUpdated
  by_cases hv : is_versioned_path f.path
  · simp only [hv, Bool.not_true, Bool.false_eq_true, if_false]
    rcases hc : gd.create_changeset (fsGet fs (Loc.mirror f.path))
        (fsGet fs (Loc.work f.path)) with _ | d
    · exact Or.inr (Or.inl ⟨rfl, rfl⟩)
    · rcases hh : gd.has_changes (some d) with _ | b
      · refine Or.inr (Or.inr (Or.inl ⟨d, rfl, hh, ?_⟩))
        simp only [hh]
      · cases b
        · refine Or.inr (Or.inr (Or.inr (Or.inl ⟨d, rfl, hh, ?_⟩)))
          simp only [hh]
        · refine Or.inr (Or.inr (Or.inr (Or.inr ⟨d, rfl, hh, ?_⟩)))
          simp only [hh]
  · simp only [Bool.not_eq_true] at hv
    left
    refine ⟨hv, ?_⟩
    simp [hv]

/-- On a create/has_changes library error the file passes through the
geodiff loop untouched (only the changeset name token is consumed). -/
theorem pushProcessUpdated_fail {gd : GeoDiff} {cm : ContentMeta} {fs : Fs}
    {cs : Nat} {ctr : Nat} {f : PushedFile}
    (hv : is_versioned_path f.path = true)
    (hfail : gd.create_changeset (fsGet fs (Loc.mirror f.path))
        (fsGet fs (Loc.work f.path)) = none ∨
      ∃ d, gd.create_changeset (fsGet fs (Loc.mirror f.path))
          (fsGet fs (Loc.work f.path)) = some d ∧
        gd.has_changes (some d) = none) :
    pushProcessUpdated gd cm fs cs ctr f = (f, false, ctr + 1) := by
  unfold pushProcessUpdated
  simp only [hv, Bool.not_true, Bool.false_eq_true, if_false]
  rcases hfail with hc | ⟨d, hc, hh⟩
  · simp only [hc]
  · simp only [hc, hh]

/-- A file that fails the geodiff step appears unchanged and unmarked in the
loop output. -/
theorem pushLoop_mem_fail {gd : GeoDiff} {cm : ContentMeta} {fs : Fs}
    {cs : Nat} {f : PushedFile} (hv : is_versioned_path f.path = true)
    (hfail : gd.create_changeset (fsGet fs (Loc.mirror f.path))
        (fsGet fs (Loc.work f.path)) = none ∨
      ∃ d, gd.create_changeset (fsGet fs (Loc.mirror f.path))
          (fsGet fs (Loc.work f.path)) = some d ∧
        gd.has_changes (some d) = none) :
    ∀ (ctr : Nat) (l : List PushedFile), f ∈ l →
      (f, false) ∈ (pushUpdatedLoop gd cm fs cs ctr l).1 := by
  intro ctr l
  induction l generalizing ctr with
  | nil => intro h; cases h
  | cons g rest ih =>
    intro hmem
    rcases List.mem_cons.mp hmem with rfl | hmem'
    · rw [pushUpdatedLoop, pushProcessUpdated_fail hv hfail]
      exact List.mem_cons_self ..
    · rw [pushUpdatedLoop]
      exact List.mem_cons_of_mem _ (ih _ hmem')

/-- A file marked `not_updated` by the loop is an input file on which
`create_changeset` succeeded and `has_changes` reported no changes. -/
theorem pushLoop_mem_flag {gd : GeoDiff} {cm : ContentMeta} {fs : Fs}
    {cs : Nat} :
    ∀ (ctr : Nat) (l : List PushedFile) (x : PushedFile),
      (x, true) ∈ (pushUpdatedLoop gd cm fs cs ctr l).1 →
      x ∈ l ∧ is_versioned_path x.path = true ∧
        ∃ d, gd.create_changeset (fsGet fs (Loc.mirror x.path))
            (fsGet fs (Loc.work x.path)) = some d ∧
          gd.has_changes (some d) = some false := by
  intro ctr l
  induction l generalizing ctr with
  | nil => intro x h; cases h
  | cons g rest ih =>
    intro x hmem
    rw [pushUpdatedLoop] at hmem
    rcases List.mem_cons.mp hmem with hhead | htail
    · rcases pushProcessUpdated_cases gd cm fs cs ctr g with
        ⟨hv, he⟩ | ⟨hc, he⟩ | ⟨d, hc, hh, he⟩ | ⟨d, hc, hh, he⟩ | ⟨d, hc, hh, he⟩ <;>
        rw [he] at hhead
      · exact absurd (congrArg Prod.snd hhead) (by simp)
      · exact absurd (congrArg Prod.snd hhead) (by simp)
      · exact absurd (congrArg Prod.snd hhead) (by simp)
      · have hx : x = g := by
          have := congrArg Prod.fst hhead
          simpa using this
        subst hx
        have hv : is_versioned_path x.path = true := by
          by_contra hvf
          rw [Bool.not_eq_true] at hvf
          have : pushProcessUpdated gd cm fs cs ctr x = (x, false, ctr) := by
            unfold pushProcessUpdated
            simp [hvf]
          rw [this] at he
          exact absurd (congrArg (fun y => y.2.1) he) (by simp)
        exact ⟨List.mem_cons_self .., hv, d, hc, hh⟩
      · exact absurd (congrArg Prod.snd hhead) (by simp)
    · obtain ⟨hm, rest'⟩ := ih _ x htail
      exact ⟨List.mem_cons_of_mem _ hm, rest'⟩

/-- Everything the chunk allocator outputs is an input file with a fresh
chunk list of length `ceil(size / chunkSize)`. -/
theorem allocChunks_mem_out (cs : Nat) :
    ∀ (ctr : Nat) (l : List PushedFile) (g : PushedFile),
      g ∈ (allocChunks cs ctr l).1 →
      ∃ f ∈ l, g = { f with chunks := g.chunks } ∧
        g.chunks.length = ceilDiv f.size cs := by
  intro ctr l
  induction l generalizing ctr with
  | nil => intro g h; cases h
  | cons f rest ih =>
    intro g hg
    rw [allocChunks] at hg
    rcases List.mem_cons.mp hg with rfl | htail
    · exact ⟨f, List.mem_cons_self .., rfl, by simp⟩
    · obtain ⟨f', hf', he, hl⟩ := ih _ _ htail
      exact ⟨f', List.mem_cons_of_mem _ hf', he, hl⟩

/-- Every input file of the chunk allocator appears in the output with a
fresh chunk list of length `ceil(size / chunkSize)` (all other fields
kept). -/
theorem allocChunks_mem_in (cs : Nat) :
    ∀ (ctr : Nat) (l : List PushedFile) (f : PushedFile), f ∈ l →
      ∃ ch, { f with chunks := ch } ∈ (allocChunks cs ctr l).1 ∧
        ch.length = ceilDiv f.size cs := by
  intro ctr l
  induction l generalizing ctr with
  | nil => intro f h; cases h
  | cons g rest ih =>
    intro f hf
    rw [allocChunks]
    rcases List.mem_cons.mp hf with rfl | htail
    · exact ⟨(List.range (ceilDiv f.size cs)).map (fun i => ctr + i),
        List.mem_cons_self .., by simp⟩
    · obtain ⟨ch, hmem, hl⟩ := ih _ _ htail
      exact ⟨ch, List.mem_cons_of_mem _ hmem, hl⟩

/-- C5: in `get_push_changes`, when `create_changeset` (or the subsequent
`has_changes` check) raises a library/conflict error for a structured
`updated` file, that file stays in the `updated` group unchanged: checksum
not rewritten, no `diff` attached, and the chunk plan still the one computed
from its full file size. -/
theorem c5_push_diff_failure_full_upload (gd : GeoDiff) (cm : ContentMeta)
    (fs : Fs) (cs : Nat) (origin inventory : List FileMeta) (ctr : Nat)
    (f : UFile) (hf : f ∈ (compare_file_sets origin inventory).updated)
    (hv : is_versioned_path f.path = true)
    (hfail : gd.create_changeset (fsGet fs (Loc.mirror f.path))
        (fsGet fs (Loc.work f.path)) = none ∨
      ∃ d, gd.create_changeset (fsGet fs (Loc.mirror f.path))
          (fsGet fs (Loc.work f.path)) = some d ∧
        gd.has_changes (some d) = none) :
    ∃ g ∈ ((get_push_changes (some gd) cm fs cs origin inventory ctr).1).updated,
      g.path = f.path ∧ g.checksum = f.checksum ∧ g.diff = none ∧
      g.chunks.length = ceilDiv f.size cs := by
  unfold get_push_changes
  simp only
  set ch := compare_file_sets origin inventory with hch
  set updated0 : List PushedFile := ch.updated.map (fun u =>
    { path := u.path, checksum := u.checksum, size := u.size,
      origin_checksum := some u.origin_checksum }) with hupdated0
  set A := allocChunks cs ctr (ch.added.map (fun a =>
    { path := a.path, checksum := a.checksum, size := a.size })) with hA
  set B := allocChunks cs A.2 updated0 with hB
  have hp0 : ({ path := f.path,
                checksum := f.checksum,
                size := f.size,
                origin_checksum := some f.origin_checksum } : PushedFile)
      ∈ updated0 :=
    List.mem_map_of_mem _ hf
  obtain ⟨chk, hmem1, hlen⟩ := allocChunks_mem_in cs A.2 updated0 _ hp0
  set g0 : PushedFile :=
    { path := f.path,
      checksum := f.checksum,
      size := f.size,
      origin_checksum := some f.origin_checksum,
      chunks := chk } with hg0
  have hmem1' : g0 ∈ B.1 := hmem1
  have hvg : is_versioned_path g0.path = true := hv
  have hfailg : gd.create_changeset (fsGet fs (Loc.mirror g0.path))
      (fsGet fs (Loc.work g0.path)) = none ∨
    ∃ d, gd.create_changeset (fsGet fs (Loc.mirror g0.path))
        (fsGet fs (Loc.work g0.path)) = some d ∧
      gd.has_changes (some d) = none := hfail
  have hloop : (g0, false) ∈ (pushUpdatedLoop gd cm fs cs B.2 B.1).1 :=
    pushLoop_mem_fail hvg hfailg B.2 B.1 hmem1'
  refine ⟨g0, ?_, rfl, rfl, rfl, hlen⟩
  rw [List.mem_filter]
  constructor
  · exact List.mem_map.mpr ⟨(g0, false), hloop, rfl⟩
  · rw [Bool.not_eq_eq_eq_not, Bool.not_true]
    suffices hn : g0 ∉ ((pushUpdatedLoop gd cm fs cs B.2 B.1).1.filter
        (fun x => x.2)).map (fun x => x.1) by simpa using hn
    intro hmemflag
    obtain ⟨x, hxf, hx1⟩ := List.mem_map.mp hmemflag
    obtain ⟨hxmem, hx2⟩ := List.mem_filter.mp hxf
    have hx : (g0, true) ∈ (pushUpdatedLoop gd cm fs cs B.2 B.1).1 := by
      have : x = (g0, true) := by
        obtain ⟨x1, x2⟩ := x
        simp only at hx1 hx2
        rw [hx1, hx2]
      rw [← this]
      exact hxmem
    obtain ⟨-, -, d, hcd, hhd⟩ := pushLoop_mem_flag B.2 B.1 g0 hx
    rcases hfailg with hc | ⟨d', hc, hh⟩
    · rw [hc] at hcd
      cases hcd
    · rw [hc] at hcd
      cases hcd
      rw [hhd] at hh
      cases hh

/-- A geodiff stub whose every operation raises. -/
def gdAllFail : GeoDiff := ⟨fun _ _ => none, fun _ _ => none, fun _ _ _ => none, fun _ => none⟩

/-- Trivial content metadata for witnesses. -/
def cmZero : ContentMeta := ⟨fun _ => 0, fun _ => "c0"⟩

/-- C5 witness: an updated `a.gpkg` whose changeset creation fails is pushed
as a full upload, at concrete inputs. -/
theorem c5_witness :
    (⟨"a.gpkg", "h2", 7, "h1"⟩ : UFile) ∈
      (compare_file_sets [⟨"a.gpkg", "h1", 7⟩] [⟨"a.gpkg", "h2", 7⟩]).updated ∧
    is_versioned_path "a.gpkg" = true ∧
    (∃ g ∈ ((get_push_changes (some gdAllFail) cmZero [] 5
        [⟨"a.gpkg", "h1", 7⟩] [⟨"a.gpkg", "h2", 7⟩] 0).1).updated,
      g.path = "a.gpkg" ∧ g.checksum = "h2" ∧ g.diff = none ∧
      g.chunks.length = ceilDiv 7 5) :=
  ⟨by decide, by decide,
    c5_push_diff_failure_full_upload gdAllFail cmZero [] 5
      [⟨"a.gpkg", "h1", 7⟩] [⟨"a.gpkg", "h2", 7⟩] 0 ⟨"a.gpkg", "h2", 7, "h1"⟩
      (by decide) (by decide) (Or.inl rfl)⟩

/-- Chunk identifiers handed out by the allocator: pairwise distinct and
confined to the counter interval consumed. -/
theorem allocChunks_bounds (cs : Nat) :
    ∀ (ctr : Nat) (l : List PushedFile),
      ctr ≤ (allocChunks cs ctr l).2 ∧
      ((allocChunks cs ctr l).1.flatMap (fun g => g.chunks)).Nodup ∧
      (∀ i ∈ (allocChunks cs ctr l).1.flatMap (fun g => g.chunks),
        ctr ≤ i ∧ i < (allocChunks cs ctr l).2) := by
  intro ctr l
  induction l generalizing ctr with
  | nil => exact ⟨Nat.le_refl _, by simp [allocChunks], by simp [allocChunks]⟩
  | cons f rest ih =>
    obtain ⟨ihle, ihnd, ihb⟩ := ih (ctr + ceilDiv f.size cs)
    rw [allocChunks]
    simp only
    refine ⟨by omega, ?_, ?_⟩
    · rw [List.flatMap_cons, List.nodup_append]
      refine ⟨?_, ihnd, ?_⟩
      · simp only
        exact (List.nodup_range _).map (fun a b h => by omega)
      · intro i hi hi'
        simp only [List.mem_map, List.mem_range] at hi
        obtain ⟨j, hj, rfl⟩ := hi
        have := (ihb _ hi').1
        omega
    · intro i hi
      rw [List.flatMap_cons, List.mem_append] at hi
      rcases hi with hi | hi
      · simp only [List.mem_map, List.mem_range] at hi
        obtain ⟨j, hj, rfl⟩ := hi
        have := ihle
        omega
      · have := ihb _ hi
        omega

/-- Counter interval and chunk shape of one geodiff push step: the chunk
list is either kept or replaced by a fresh pairwise-distinct block in the
consumed counter interval. -/
theorem pushProcessUpdated_chunks (gd : GeoDiff) (cm : ContentMeta) (fs : Fs)
    (cs : Nat) (ctr : Nat) (f : PushedFile) :
    ctr ≤ (pushProcessUpdated gd cm fs cs ctr f).2.2 ∧
    ((pushProcessUpdated gd cm fs cs ctr f).1.chunks = f.chunks ∨
      ((pushProcessUpdated gd cm fs cs ctr f).1.chunks.Nodup ∧
        ∀ i ∈ (pushProcessUpdated gd cm fs cs ctr f).1.chunks,
          ctr ≤ i ∧ i < (pushProcessUpdated gd cm fs cs ctr f).2.2)) := by
  rcases pushProcessUpdated_cases gd cm fs cs ctr f with
    ⟨-, he⟩ | ⟨-, he⟩ | ⟨d, -, -, he⟩ | ⟨d, -, -, he⟩ | ⟨d, -, -, he⟩ <;>
    rw [he] <;> dsimp only
  · exact ⟨Nat.le_refl _, Or.inl rfl⟩
  · exact ⟨Nat.le_succ _, Or.inl rfl⟩
  · exact ⟨Nat.le_succ _, Or.inl rfl⟩
  · exact ⟨Nat.le_succ _, Or.inl rfl⟩
  · refine ⟨by omega, Or.inr ⟨?_, ?_⟩⟩
    · exact (List.nodup_range _).map (fun a b h => by omega)
    · intro i hi
      simp only [List.mem_map, List.mem_range] at hi
      obtain ⟨j, hj, rfl⟩ := hi
      omega

/-- Chunk identifiers across the geodiff loop: distinct overall, and every
identifier is either an input identifier or freshly drawn. -/
theorem pushLoop_bounds (gd : GeoDiff) (cm : ContentMeta) (fs : Fs) (cs : Nat) :
    ∀ (ctr : Nat) (l : List PushedFile),
      (l.flatMap (fun g => g.chunks)).Nodup →
      (∀ i ∈ l.flatMap (fun g => g.chunks), i < ctr) →
      ctr ≤ (pushUpdatedLoop gd cm fs cs ctr l).2 ∧
      (((pushUpdatedLoop gd cm fs cs ctr l).1.map (fun x => x.1)).flatMap
        (fun g => g.chunks)).Nodup ∧
      (∀ i ∈ ((pushUpdatedLoop gd cm fs cs ctr l).1.map (fun x => x.1)).flatMap
          (fun g => g.chunks),
        i < (pushUpdatedLoop gd cm fs cs ctr l).2 ∧
          (i ∈ l.flatMap (fun g => g.chunks) ∨ ctr ≤ i)) := by
  intro ctr l
  induction l generalizing ctr with
  | nil =>
    intro _ _
    exact ⟨Nat.le_refl _, by simp [pushUpdatedLoop], by simp [pushUpdatedLoop]⟩
  | cons f rest ih =>
    intro hnd hlt
    rw [List.flatMap_cons, List.nodup_append] at hnd
    obtain ⟨hndf, hndrest, hdisj⟩ := hnd
    have hltf : ∀ i ∈ f.chunks, i < ctr := fun i hi =>
      hlt i (by rw [List.flatMap_cons, List.mem_append]; exact Or.inl hi)
    have hltrest : ∀ i ∈ rest.flatMap (fun g => g.chunks), i < ctr := fun i hi =>
      hlt i (by rw [List.flatMap_cons, List.mem_append]; exact Or.inr hi)
    obtain ⟨hple, hpch⟩ := pushProcessUpdated_chunks gd cm fs cs ctr f
    have hltrest' : ∀ i ∈ rest.flatMap (fun g => g.chunks),
        i < (pushProcessUpdated gd cm fs cs ctr f).2.2 := fun i hi =>
      Nat.lt_of_lt_of_le (hltrest i hi) hple
    obtain ⟨ihle, ihnd, ihb⟩ := ih (pushProcessUpdated gd cm fs cs ctr f).2.2
      hndrest hltrest'
    rw [pushUpdatedLoop]
    simp only [List.map_cons, List.flatMap_cons]
    refine ⟨by omega, ?_, ?_⟩
    · rw [List.nodup_append]
      refine ⟨?_, ihnd, ?_⟩
      · rcases hpch with he | ⟨hnd', -⟩
        · rw [he]; exact hndf
        · exact hnd'
      · intro i hi hi'
        obtain ⟨-, hor⟩ := ihb i hi'
        rcases hpch with he | ⟨-, hb⟩
        · rw [he] at hi
          rcases hor with hin | hge
          · exact hdisj hi hin
          · exact absurd (hltf i hi) (by omega)
        · obtain ⟨hge', hlt'⟩ := hb i hi
          rcases hor with hin | hge
          · exact absurd (hltrest i hin) (by omega)
          · omega
    · intro i hi
      rw [List.mem_append] at hi
      rcases hi with hi | hi
      · rcases hpch with he | ⟨-, hb⟩
        · rw [he] at hi
          exact ⟨by have := hltf i hi; omega,
            Or.inl (List.mem_append.mpr (Or.inl hi))⟩
        · obtain ⟨hge, hlt'⟩ := hb i hi
          exact ⟨by omega, Or.inr hge⟩
      · obtain ⟨hlt', hor⟩ := ihb i hi
        refine ⟨hlt', ?_⟩
        rcases hor with hin | hge
        · exact Or.inl (List.mem_append.mpr (Or.inr hin))
        · exact Or.inr (by omega)

theorem sublist_flatMap_chunks {l₁ l₂ : List PushedFile}
    (h : List.Sublist l₁ l₂) :
    List.Sublist (l₁.flatMap (fun g => g.chunks)) (l₂.flatMap (fun g => g.chunks)) := by
  induction h with
  | slnil => exact List.Sublist.refl _
  | cons a _ ih =>
    rw [List.flatMap_cons]
    exact ih.trans (List.sublist_append_right _ _)
  | cons₂ a _ ih =>
    rw [List.flatMap_cons, List.flatMap_cons]
    exact ih.append_left _

/-- Per-file chunk-plan shape through the geodiff loop: a file that gets a
`diff` attached is re-chunked against the diff size, any other file keeps
its full-size chunk plan. -/
theorem pushLoop_mem_shape (gd : GeoDiff) (cm : ContentMeta) (fs : Fs)
    (cs : Nat) :
    ∀ (ctr : Nat) (l : List PushedFile),
      (∀ f ∈ l, f.diff = none ∧ f.chunks.length = ceilDiv f.size cs) →
      ∀ xb ∈ (pushUpdatedLoop gd cm fs cs ctr l).1,
        (∀ dm, xb.1.diff = some dm → xb.1.chunks.length = ceilDiv dm.size cs) ∧
        (xb.1.diff = none → xb.1.chunks.length = ceilDiv xb.1.size cs) := by
  intro ctr l
  induction l generalizing ctr with
  | nil => intro _ xb h; cases h
  | cons f rest ih =>
    intro hin xb hxb
    rw [pushUpdatedLoop] at hxb
    dsimp only at hxb
    rcases List.mem_cons.mp hxb with rfl | htail
    · obtain ⟨hdn, hlen⟩ := hin f (List.mem_cons_self ..)
      rcases pushProcessUpdated_cases gd cm fs cs ctr f with
        ⟨-, he⟩ | ⟨-, he⟩ | ⟨d, -, -, he⟩ | ⟨d, -, -, he⟩ | ⟨d, -, -, he⟩ <;>
        rw [he] <;> dsimp only
      · exact ⟨fun dm hdm => absurd (hdn ▸ hdm) (by simp), fun _ => hlen⟩
      · exact ⟨fun dm hdm => absurd (hdn ▸ hdm) (by simp), fun _ => hlen⟩
      · exact ⟨fun dm hdm => absurd (hdn ▸ hdm) (by simp), fun _ => hlen⟩
      · exact ⟨fun dm hdm => absurd (hdn ▸ hdm) (by simp), fun _ => hlen⟩
      · refine ⟨fun dm hdm => ?_, fun hco => by simp at hco⟩
        have hinj : (⟨f.path ++ "-diff-" ++ toString ctr, cm.checksum d,
            cm.size d⟩ : PushDiffMeta) = dm := by
          have hx := hdm
          simp only at hx
          simpa using hx
        rw [← hinj]
        simp
    · exact ih _ (fun g hg => hin g (List.mem_cons_of_mem _ hg)) xb htail

/-- C6: every entry of the push plan's `added` and `updated` groups carries a
chunk list of exactly `ceil(size / CHUNK_SIZE)` fresh identifiers — for a
structured updated file with an attached changeset, of exactly
`ceil(diff_size / CHUNK_SIZE)` against the changeset size — and all chunk
identifiers in a plan are pairwise distinct (`uuid.uuid4()` modelled as a
fresh-token counter). -/
theorem c6_push_chunk_plan (gd : Option GeoDiff) (cm : ContentMeta) (fs : Fs)
    (cs : Nat) (origin inventory : List FileMeta) (ctr : Nat) :
    (∀ g ∈ ((get_push_changes gd cm fs cs origin inventory ctr).1).added,
      g.diff = none ∧ g.chunks.length = ceilDiv g.size cs) ∧
    (∀ g ∈ ((get_push_changes gd cm fs cs origin inventory ctr).1).updated,
      (∀ dm, g.diff = some dm → g.chunks.length = ceilDiv dm.size cs) ∧
      (g.diff = none → g.chunks.length = ceilDiv g.size cs)) ∧
    ((((get_push_changes gd cm fs cs origin inventory ctr).1).added ++
        ((get_push_changes gd cm fs cs origin inventory ctr).1).updated).flatMap
      (fun g => g.chunks)).Nodup := by
  unfold get_push_changes
  simp only
  set ch := compare_file_sets origin inventory with hch
  set added0 : List PushedFile := ch.added.map (fun f =>
    { path := f.path, checksum := f.checksum, size := f.size }) with hadded0
  set updated0 : List PushedFile := ch.updated.map (fun f =>
    { path := f.path, checksum := f.checksum, size := f.size,
      origin_checksum := some f.origin_checksum }) with hupdated0
  set A := allocChunks cs ctr added0 with hA
  set B := allocChunks cs A.2 updated0 with hB
  have hadded0dn : ∀ f ∈ added0, f.diff = none := by
    intro f hf
    rw [hadded0] at hf
    obtain ⟨a, -, rfl⟩ := List.mem_map.mp hf
    rfl
  have hupdated0dn : ∀ f ∈ updated0, f.diff = none := by
    intro f hf
    rw [hupdated0] at hf
    obtain ⟨a, -, rfl⟩ := List.mem_map.mp hf
    rfl
  have haddedProp : ∀ g ∈ A.1, g.diff = none ∧ g.chunks.length = ceilDiv g.size cs := by
    intro g hg
    obtain ⟨f, hf, he, hl⟩ := allocChunks_mem_out cs ctr added0 g hg
    refine ⟨?_, ?_⟩
    · rw [he]
      exact hadded0dn f hf
    · rw [hl, he]
  have hupdatedProp : ∀ g ∈ B.1, g.diff = none ∧ g.chunks.length = ceilDiv g.size cs := by
    intro g hg
    obtain ⟨f, hf, he, hl⟩ := allocChunks_mem_out cs A.2 updated0 g hg
    refine ⟨?_, ?_⟩
    · rw [he]
      exact hupdated0dn f hf
    · rw [hl, he]
  obtain ⟨hAle, hAnd, hAb⟩ := allocChunks_bounds cs ctr added0
  obtain ⟨hBle, hBnd, hBb⟩ := allocChunks_bounds cs A.2 updated0
  rw [← hA] at hAle hAnd hAb
  rw [← hB] at hBle hBnd hBb
  match gd with
  | none =>
    dsimp only
    refine ⟨haddedProp, ?_, ?_⟩
    · intro g hg
      obtain ⟨hdn, hlen⟩ := hupdatedProp g hg
      exact ⟨fun dm hdm => absurd (hdn ▸ hdm) (by simp), fun _ => hlen⟩
    · rw [List.flatMap_append, List.nodup_append]
      refine ⟨hAnd, hBnd, ?_⟩
      intro i hiA hiB
      have h1 := (hAb i hiA).2
      have h2 := (hBb i hiB).1
      omega
  | some g =>
    dsimp only
    have hloopIn : ∀ i ∈ B.1.flatMap (fun x => x.chunks), i < B.2 :=
      fun i hi => (hBb i hi).2
    obtain ⟨hLle, hLnd, hLb⟩ := pushLoop_bounds g cm fs cs B.2 B.1 hBnd hloopIn
    have hshape := pushLoop_mem_shape g cm fs cs B.2 B.1 hupdatedProp
    refine ⟨haddedProp, ?_, ?_⟩
    · intro x hx
      obtain ⟨hxm, -⟩ := List.mem_filter.mp hx
      obtain ⟨xb, hxb, rfl⟩ := List.mem_map.mp hxm
      exact hshape xb hxb
    · rw [List.flatMap_append]
      have hfull : ((A.1.flatMap (fun x => x.chunks)) ++
          (((pushUpdatedLoop g cm fs cs B.2 B.1).1.map (fun x => x.1)).flatMap
            (fun x => x.chunks))).Nodup := by
        rw [List.nodup_append]
        refine ⟨hAnd, hLnd, ?_⟩
        intro i hiA hiL
        have h1 := (hAb i hiA).2
        obtain ⟨-, hor⟩ := hLb i hiL
        rcases hor with hin | hge
        · have := (hBb i hin).1
          omega
        · omega
      refine hfull.sublist ?_
      refine List.Sublist.append_left ?_ _
      exact sublist_flatMap_chunks (List.filter_sublist _)

/-! ### Change-detector coverage and disjointness (C3) -/

def pathsOf (l : List FileMeta) : List String := l.map (fun f => f.path)

/-- Path appears among the `added` entries. -/
def addedPath (r : Changes) (p : String) : Prop := ∃ f ∈ r.added, f.path = p

/-- Path appears among the `removed` entries. -/
def removedPath (r : Changes) (p : String) : Prop := ∃ f ∈ r.removed, f.path = p

/-- Path appears among the `updated` entries. -/
def updatedPath (r : Changes) (p : String) : Prop := ∃ f ∈ r.updated, f.path = p

/-- Path appears as the old path of a `renamed` entry. -/
def renamedOldPath (r : Changes) (p : String) : Prop := ∃ m ∈ r.renamed, m.path = p

/-- Path appears as the `new_path` of a `renamed` entry. -/
def renamedNewPath (r : Changes) (p : String) : Prop :=
  ∃ m ∈ r.renamed, m.new_path = p

/-- Path is unchanged: present in both inputs with equal checksum and not
involved in any rename. -/
def unchangedPath (origin current : List FileMeta) (r : Changes) (p : String) :
    Prop :=
  (∃ f ∈ origin, ∃ g ∈ current, f.path = p ∧ g.path = p ∧ f.checksum = g.checksum) ∧
  ¬ renamedOldPath r p ∧ ¬ renamedNewPath r p

instance (r : Changes) (p : String) : Decidable (addedPath r p) := by
  unfold addedPath; infer_instance

instance (r : Changes) (p : String) : Decidable (removedPath r p) := by
  unfold removedPath; infer_instance

instance (r : Changes) (p : String) : Decidable (updatedPath r p) := by
  unfold updatedPath; infer_instance

instance (r : Changes) (p : String) : Decidable (renamedOldPath r p) := by
  unfold renamedOldPath; infer_instance

instance (r : Changes) (p : String) : Decidable (renamedNewPath r p) := by
  unfold renamedNewPath; infer_instance

instance (origin current : List FileMeta) (r : Changes) (p : String) :
    Decidable (unchangedPath origin current r p) := by
  unfold unchangedPath; infer_instance

/-- C3 as stated: on unique-path inputs, every path of either input falls in
exactly one of the groups `{added, removed, updated, renamed.new_path}` or
is unchanged. -/
def C3Stated (origin current : List FileMeta) : Prop :=
  (pathsOf origin).Nodup → (pathsOf current).Nodup →
    ∀ p, p ∈ pathsOf origin ∨ p ∈ pathsOf current →
      ([decide (addedPath (compare_file_sets origin current) p),
        decide (removedPath (compare_file_sets origin current) p),
        decide (updatedPath (compare_file_sets origin current) p),
        decide (renamedNewPath (compare_file_sets origin current) p),
        decide (unchangedPath origin current (compare_file_sets origin current) p)
       ].count true = 1)

/-- C3 counterexample: for the pure rename `origin = [a]`, `current = [b]`
(the spec's own rename scenario), the old path `a` is in none of the four
groups `{added, removed, updated, renamed.new_path}`, nor unchanged — it
lives only in the `path` field of the renamed pair, which the claim's group
list omits, so "exactly one" fails. -/
theorem c3_counterexample : ¬ C3Stated [⟨"a", "h", 1⟩] [⟨"b", "h", 1⟩] :=
  fun hcl => absurd (hcl (by decide) (by decide) "a" (by decide)) (by decide)

theorem compare_added_def (origin current : List FileMeta) :
    (compare_file_sets origin current).added =
      (current.filter (fun f => !origin.any (fun g => g.path == f.path))).filter
        (fun f =>
          (movedList (origin.filter (fun f => !current.any (fun g => g.path == f.path)))
            current).all (fun mf => f.path != mf.new_path)) := rfl

theorem compare_removed_def (origin current : List FileMeta) :
    (compare_file_sets origin current).removed =
      (origin.filter (fun f => !current.any (fun g => g.path == f.path))).filter
        (fun f =>
          (movedList (origin.filter (fun f => !current.any (fun g => g.path == f.path)))
            current).all (fun mf => f.path != mf.path)) := rfl

theorem compare_renamed_def (origin current : List FileMeta) :
    (compare_file_sets origin current).renamed =
      movedList (origin.filter (fun f => !current.any (fun g => g.path == f.path)))
        current := rfl

theorem compare_updated_def (origin current : List FileMeta) :
    (compare_file_sets origin current).updated =
      current.filterMap (fun f =>
        match pathLookup origin f.path with
        | none => none
        | some o =>
          if f.checksum == o.checksum then none
          else some ⟨f.path, f.checksum, f.size, o.checksum⟩) := rfl

theorem fileMeta_eq_of_path {l : List FileMeta} (hnd : (pathsOf l).Nodup)
    {f g : FileMeta} (hf : f ∈ l) (hg : g ∈ l) (h : f.path = g.path) : f = g :=
  List.inj_on_of_nodup_map hnd hf hg h

theorem pathLookup_mem {l : List FileMeta} {p : String} {f : FileMeta}
    (h : pathLookup l p = some f) : f ∈ l ∧ f.path = p := by
  unfold pathLookup at h
  have hm := List.mem_of_find?_eq_some h
  have hp := List.find?_some h
  exact ⟨List.mem_reverse.mp hm, by simpa using hp⟩

theorem pathLookup_isSome {l : List FileMeta} {p : String}
    (h : p ∈ pathsOf l) : ∃ f, pathLookup l p = some f := by
  unfold pathLookup
  obtain ⟨f, hf, rfl⟩ := List.mem_map.mp h
  have hs : (l.reverse.find? (fun g => g.path == f.path)).isSome := by
    rw [List.find?_isSome]
    exact ⟨f, List.mem_reverse.mpr hf, by simp⟩
  exact Option.isSome_iff_exists.mp hs

/-- Every pair produced by the rename scan takes its old path from `removed`
and its new path from `current`. -/
theorem movedList_mem_aux (current : List FileMeta) :
    ∀ (removed : List FileMeta) (acc : List RenamedMeta) (m : RenamedMeta),
      m ∈ removed.foldl (movedStep current) acc →
      m ∈ acc ∨ ((∃ rf ∈ removed, m.path = rf.path) ∧
        ∃ f ∈ current, m.new_path = f.path) := by
  intro removed
  induction removed with
  | nil => intro acc m hm; exact Or.inl hm
  | cons rf rest ih =>
    intro acc m hm
    rw [List.foldl_cons] at hm
    rcases ih _ m hm with hacc | ⟨⟨rf', hrf', hp⟩, hnew⟩
    · unfold movedStep at hacc
      rcases hfind : find current (fun f => f.checksum == rf.checksum &&
          f.size == rf.size && acc.all (fun mf => f.path != mf.path)) with _ | mm
      · rw [hfind] at hacc
        exact Or.inl hacc
      · rw [hfind] at hacc
        rcases List.mem_append.mp hacc with hacc' | hnew'
        · exact Or.inl hacc'
        · have hm' : m = ⟨rf.path, rf.checksum, rf.size, mm.path⟩ := by
            simpa using hnew'
          have hmm : mm ∈ current := List.mem_of_find?_eq_some hfind
          refine Or.inr ⟨⟨rf, List.mem_cons_self .., by rw [hm']⟩,
            mm, hmm, by rw [hm']⟩
    · exact Or.inr ⟨⟨rf', List.mem_cons_of_mem _ hrf', hp⟩, hnew⟩

theorem movedList_mem {removed current : List FileMeta} {m : RenamedMeta}
    (hm : m ∈ movedList removed current) :
    (∃ rf ∈ removed, m.path = rf.path) ∧ ∃ f ∈ current, m.new_path = f.path := by
  rcases movedList_mem_aux current removed [] m hm with h | h
  · cases h
  · exact h

theorem addedPath_fact {origin current : List FileMeta} {p : String}
    (h : addedPath (compare_file_sets origin current) p) :
    p ∈ pathsOf current ∧ p ∉ pathsOf origin ∧
      ¬ renamedNewPath (compare_file_sets origin current) p := by
  obtain ⟨f, hf, rfl⟩ := h
  rw [compare_added_def] at hf
  obtain ⟨hf0, hall⟩ := List.mem_filter.mp hf
  obtain ⟨hfc, hnotany⟩ := List.mem_filter.mp hf0
  simp only [Bool.not_eq_true', List.any_eq_false, beq_eq_false_iff_ne] at hnotany
  simp only [List.all_eq_true, bne_iff_ne] at hall
  refine ⟨List.mem_map_of_mem _ hfc, ?_, ?_⟩
  · intro hmem
    obtain ⟨g, hg, hgp⟩ := List.mem_map.mp hmem
    exact hnotany g hg (by simp [hgp])
  · rintro ⟨m, hm, hmp⟩
    rw [compare_renamed_def] at hm
    exact hall m hm hmp.symm

theorem removedPath_fact {origin current : List FileMeta} {p : String}
    (h : removedPath (compare_file_sets origin current) p) :
    p ∈ pathsOf origin ∧ p ∉ pathsOf current ∧
      ¬ renamedOldPath (compare_file_sets origin current) p := by
  obtain ⟨f, hf, rfl⟩ := h
  rw [compare_removed_def] at hf
  obtain ⟨hf0, hall⟩ := List.mem_filter.mp hf
  obtain ⟨hfo, hnotany⟩ := List.mem_filter.mp hf0
  simp only [Bool.not_eq_true', List.any_eq_false, beq_eq_false_iff_ne] at hnotany
  simp only [List.all_eq_true, bne_iff_ne] at hall
  refine ⟨List.mem_map_of_mem _ hfo, ?_, ?_⟩
  · intro hmem
    obtain ⟨g, hg, hgp⟩ := List.mem_map.mp hmem
    exact hnotany g hg (by simp [hgp])
  · rintro ⟨m, hm, hmp⟩
    rw [compare_renamed_def] at hm
    exact hall m hm hmp.symm

theorem updatedPath_fact {origin current : List FileMeta} {p : String}
    (h : updatedPath (compare_file_sets origin current) p) :
    ∃ fc ∈ current, ∃ fo ∈ origin, fc.path = p ∧ fo.path = p ∧
      fc.checksum ≠ fo.checksum := by
  obtain ⟨u, hu, hup⟩ := h
  rw [compare_updated_def] at hu
  obtain ⟨f, hf, hfn⟩ := List.mem_filterMap.mp hu
  rcases hlk : pathLookup origin f.path with _ | oo
  · rw [hlk] at hfn
    cases hfn
  · rw [hlk] at hfn
    by_cases hcs : (f.checksum == oo.checksum) = true
    · simp only [hcs, if_true] at hfn
      cases hfn
    · rw [Bool.not_eq_true] at hcs
      simp only [hcs, Bool.false_eq_true, if_false] at hfn
      obtain ⟨hooin, hoop⟩ := pathLookup_mem hlk
      have hu' := Option.some.inj hfn
      have hfp : f.path = p := by
        rw [← hup, ← hu']
      refine ⟨f, hf, oo, hooin, hfp, by rw [hoop, hfp], ?_⟩
      rw [← beq_eq_false_iff_ne]
      exact hcs

theorem renamedOldPath_fact {origin current : List FileMeta} {p : String}
    (h : renamedOldPath (compare_file_sets origin current) p) :
    p ∈ pathsOf origin ∧ p ∉ pathsOf current := by
  obtain ⟨m, hm, hmp⟩ := h
  rw [compare_renamed_def] at hm
  obtain ⟨⟨rf, hrf, hp⟩, -⟩ := movedList_mem hm
  obtain ⟨hrfo, hnot⟩ := List.mem_filter.mp hrf
  simp only [Bool.not_eq_true', List.any_eq_false, beq_eq_false_iff_ne] at hnot
  have hrfp : rf.path = p := by rw [← hp, hmp]
  constructor
  · rw [← hrfp]
    exact List.mem_map_of_mem _ hrfo
  · intro hmem
    obtain ⟨g, hg, hgp⟩ := List.mem_map.mp hmem
    exact hnot g hg (by simp [hgp, hrfp])

theorem renamedNewPath_fact {origin current : List FileMeta} {p : String}
    (h : renamedNewPath (compare_file_sets origin current) p) :
    p ∈ pathsOf current := by
  obtain ⟨m, hm, hmp⟩ := h
  rw [compare_renamed_def] at hm
  obtain ⟨-, f, hf, hnp⟩ := movedList_mem hm
  rw [← hmp, hnp]
  exact List.mem_map_of_mem _ hf

/-- The amended C3 partition property at a path `p`: `p` is covered by one
of the six groups (the renamed pairs contributing both their old and their
new path); the groups `{added, removed, updated, renamed.path, unchanged}`
are pairwise disjoint; and a renamed `new_path` meets none of
`{added, removed, renamed.path}` (it may coincide with an updated or —
vacuously — unchanged path, which is the code's behaviour when the rename
scan claims a path that origin already knew). -/
def resultGroupsPartition (origin current : List FileMeta) (p : String) : Prop :=
  (addedPath (compare_file_sets origin current) p ∨
    removedPath (compare_file_sets origin current) p ∨
    updatedPath (compare_file_sets origin current) p ∨
    renamedOldPath (compare_file_sets origin current) p ∨
    renamedNewPath (compare_file_sets origin current) p ∨
    unchangedPath origin current (compare_file_sets origin current) p) ∧
  ¬(addedPath (compare_file_sets origin current) p ∧
    removedPath (compare_file_sets origin current) p) ∧
  ¬(addedPath (compare_file_sets origin current) p ∧
    updatedPath (compare_file_sets origin current) p) ∧
  ¬(addedPath (compare_file_sets origin current) p ∧
    renamedOldPath (compare_file_sets origin current) p) ∧
  ¬(addedPath (compare_file_sets origin current) p ∧
    unchangedPath origin current (compare_file_sets origin current) p) ∧
  ¬(removedPath (compare_file_sets origin current) p ∧
    updatedPath (compare_file_sets origin current) p) ∧
  ¬(removedPath (compare_file_sets origin current) p ∧
    renamedOldPath (compare_file_sets origin current) p) ∧
  ¬(removedPath (compare_file_sets origin current) p ∧
    unchangedPath origin current (compare_file_sets origin current) p) ∧
  ¬(updatedPath (compare_file_sets origin current) p ∧
    renamedOldPath (compare_file_sets origin current) p) ∧
  ¬(updatedPath (compare_file_sets origin current) p ∧
    unchangedPath origin current (compare_file_sets origin current) p) ∧
  ¬(renamedOldPath (compare_file_sets origin current) p ∧
    unchangedPath origin current (compare_file_sets origin current) p) ∧
  ¬(renamedNewPath (compare_file_sets origin current) p ∧
    addedPath (compare_file_sets origin current) p) ∧
  ¬(renamedNewPath (compare_file_sets origin current) p ∧
    removedPath (compare_file_sets origin current) p) ∧
  ¬(renamedNewPath (compare_file_sets origin current) p ∧
    renamedOldPath (compare_file_sets origin current) p)

/-- C3 (amended): on unique-path inputs every path of either input is
covered by the result groups — counting a renamed pair for both its old
and new path — with the disjointness recorded in
`resultGroupsPartition`. -/
theorem c3_cover_disjoint (origin current : List FileMeta)
    (hno : (pathsOf origin).Nodup) (hnc : (pathsOf current).Nodup) :
    ∀ p, p ∈ pathsOf origin ∨ p ∈ pathsOf current →
      resultGroupsPartition origin current p := by
  intro p hp
  unfold resultGroupsPartition
  refine ⟨?_, ?_, ?_, ?_, ?_, ?_, ?_, ?_, ?_, ?_, ?_, ?_, ?_, ?_⟩
  · -- coverage
    by_cases ho : p ∈ pathsOf origin
    · by_cases hc : p ∈ pathsOf current
      · -- present on both sides
        obtain ⟨fc, hfc, hfcp⟩ := List.mem_map.mp hc
        obtain ⟨oo, hlk⟩ := pathLookup_isSome ho
        obtain ⟨hooin, hoop⟩ := pathLookup_mem hlk
        by_cases hcs : fc.checksum = oo.checksum
        · by_cases hrn : renamedNewPath (compare_file_sets origin current) p
          · exact Or.inr (Or.inr (Or.inr (Or.inr (Or.inl hrn))))
          · refine Or.inr (Or.inr (Or.inr (Or.inr (Or.inr
              ⟨⟨oo, hooin, fc, hfc, hoop, hfcp, hcs.symm⟩, ?_, hrn⟩))))
            intro hro
            exact (renamedOldPath_fact hro).2 hc
        · -- checksums differ: the updated group covers p
          refine Or.inr (Or.inr (Or.inl ⟨⟨fc.path, fc.checksum, fc.size,
            oo.checksum⟩, ?_, hfcp⟩))
          rw [compare_updated_def]
          rw [List.mem_filterMap]
          refine ⟨fc, hfc, ?_⟩
          rw [hfcp, hlk]
          have : (fc.checksum == oo.checksum) = false := by
            rw [beq_eq_false_iff_ne]
            exact hcs
          simp only [this, Bool.false_eq_true, if_false]
      · -- origin only: renamed old path or removed
        obtain ⟨fo, hfo, hfop⟩ := List.mem_map.mp ho
        have hrf0 : fo ∈ origin.filter
            (fun f => !current.any (fun g => g.path == f.path)) := by
          rw [List.mem_filter]
          refine ⟨hfo, ?_⟩
          simp only [Bool.not_eq_true', List.any_eq_false]
          intro g hg hbeq
          rw [beq_iff_eq] at hbeq
          exact hc (by rw [← hfop, ← hbeq]; exact List.mem_map_of_mem _ hg)
        by_cases hex : ∃ m ∈ movedList (origin.filter
            (fun f => !current.any (fun g => g.path == f.path))) current,
            m.path = p
        · obtain ⟨m, hm, hmp⟩ := hex
          refine Or.inr (Or.inr (Or.inr (Or.inl ⟨m, ?_, hmp⟩)))
          rw [compare_renamed_def]
          exact hm
        · refine Or.inr (Or.inl ⟨fo, ?_, hfop⟩)
          rw [compare_removed_def, List.mem_filter]
          refine ⟨hrf0, ?_⟩
          simp only [List.all_eq_true, bne_iff_ne]
          intro m hm hmp
          exact hex ⟨m, hm, by rw [← hmp, hfop]⟩
    · -- current only: renamed new path or added
      have hc : p ∈ pathsOf current := by
        rcases hp with h | h
        · exact absurd h ho
        · exact h
      obtain ⟨fc, hfc, hfcp⟩ := List.mem_map.mp hc
      by_cases hrn : renamedNewPath (compare_file_sets origin current) p
      · exact Or.inr (Or.inr (Or.inr (Or.inr (Or.inl hrn))))
      · refine Or.inl ⟨fc, ?_, hfcp⟩
        rw [compare_added_def, List.mem_filter]
        constructor
        · rw [List.mem_filter]
          refine ⟨hfc, ?_⟩
          simp only [Bool.not_eq_true', List.any_eq_false]
          intro g hg hbeq
          rw [beq_iff_eq] at hbeq
          exact ho (by rw [← hfcp, ← hbeq]; exact List.mem_map_of_mem _ hg)
        · simp only [List.all_eq_true, bne_iff_ne]
          intro m hm hmp
          refine hrn ⟨m, ?_, by rw [← hmp, hfcp]⟩
          rw [compare_renamed_def]
          exact hm
  · rintro ⟨ha, hr⟩
    exact (addedPath_fact ha).2.1 (removedPath_fact hr).1
  · rintro ⟨ha, hu⟩
    obtain ⟨-, -, fo, hfo, -, hfop, -⟩ := updatedPath_fact hu
    exact (addedPath_fact ha).2.1 (by rw [← hfop]; exact List.mem_map_of_mem _ hfo)
  · rintro ⟨ha, hro⟩
    exact (addedPath_fact ha).2.1 (renamedOldPath_fact hro).1
  · rintro ⟨ha, hun⟩
    obtain ⟨⟨f, hf, -, -, hfp, -, -⟩, -, -⟩ := hun
    exact (addedPath_fact ha).2.1 (by rw [← hfp]; exact List.mem_map_of_mem _ hf)
  · rintro ⟨hr, hu⟩
    obtain ⟨fc, hfc, -, -, hfcp, -, -⟩ := updatedPath_fact hu
    exact (removedPath_fact hr).2.1 (by rw [← hfcp]; exact List.mem_map_of_mem _ hfc)
  · rintro ⟨hr, hro⟩
    exact (removedPath_fact hr).2.2 hro
  · rintro ⟨hr, hun⟩
    obtain ⟨⟨-, -, g, hg, -, hgp, -⟩, -, -⟩ := hun
    exact (removedPath_fact hr).2.1 (by rw [← hgp]; exact List.mem_map_of_mem _ hg)
  · rintro ⟨hu, hro⟩
    obtain ⟨fc, hfc, -, -, hfcp, -, -⟩ := updatedPath_fact hu
    exact (renamedOldPath_fact hro).2 (by rw [← hfcp]; exact List.mem_map_of_mem _ hfc)
  · rintro ⟨hu, hun⟩
    obtain ⟨fc, hfc, fo, hfo, hfcp, hfop, hne⟩ := updatedPath_fact hu
    obtain ⟨⟨f, hf, g, hg, hfp, hgp, hcs⟩, -, -⟩ := hun
    have h1 : fc = g := fileMeta_eq_of_path hnc hfc hg (by rw [hfcp, hgp])
    have h2 : fo = f := fileMeta_eq_of_path hno hfo hf (by rw [hfop, hfp])
    apply hne
    rw [h1, h2, ← hcs]
  · rintro ⟨hro, hun⟩
    exact hun.2.1 hro
  · rintro ⟨hrn, ha⟩
    exact (addedPath_fact ha).2.2 hrn
  · rintro ⟨hrn, hr⟩
    exact (removedPath_fact hr).2.1 (renamedNewPath_fact hrn)
  · rintro ⟨hrn, hro⟩
    exact (renamedOldPath_fact hro).2 (renamedNewPath_fact hrn)

/-- C3 witness: the partition property at a concrete unchanged path. -/
theorem c3_cover_disjoint_witness :
    (pathsOf [⟨"a", "h", 1⟩]).Nodup ∧ (pathsOf [⟨"a", "h", 1⟩]).Nodup ∧
    ("a" ∈ pathsOf [⟨"a", "h", 1⟩] ∨ "a" ∈ pathsOf [⟨"a", "h", 1⟩]) ∧
    resultGroupsPartition [⟨"a", "h", 1⟩] [⟨"a", "h", 1⟩] "a" :=
  ⟨by decide, by decide, by decide,
    c3_cover_disjoint [⟨"a", "h", 1⟩] [⟨"a", "h", 1⟩] (by decide) (by decide)
      "a" (by decide)⟩

/-! ### Apply-pull rebase recovery (C1) -/

theorem str_ne_of_length {a b : String} (h : a.length ≠ b.length) : a ≠ b :=
  fun he => h (congrArg String.length he)

/-- Every candidate conflict name is the path extended by a suffix of at
least 14 characters (`_conflict_copy` plus an optional index). -/
theorem conflictName_shape (p : String) (k : Nat) :
    ∃ t : String, conflictName p k = p ++ t ∧ 14 ≤ t.length := by
  unfold conflictName
  split
  · exact ⟨"_conflict_copy", rfl, by decide⟩
  · refine ⟨"_conflict_copy" ++ toString (k + 1), ?_, ?_⟩
    · rw [String.append_assoc]
    · rw [String.length_append]
      have h14 : ("_conflict_copy" : String).length = 14 := by decide
      omega

theorem fsGet_condRemove_ne {l' l : Loc} (fs : Fs) (h : l' ≠ l) :
    fsGet (if (fsGet fs l).isSome then fsRemove l fs else fs) l' = fsGet fs l' := by
  split
  · exact fsGet_remove_ne fs h
  · rfl

theorem fsGet_condRemove_same (l : Loc) (fs : Fs) :
    fsGet (if (fsGet fs l).isSome then fsRemove l fs else fs) l = none := by
  split
  · exact fsGet_remove_same ..
  · rename_i hn
    exact Option.not_isSome_iff_eq_none.mp (by simpa using hn)

/-- The recovery path of a failed rebase: the working file and basefile are
restored from the server snapshot, the local backup content ends up in a
fresh `_conflict_copy` sibling recorded in the conflicts list, and the
`-wal`/`-shm` sidecars are gone. -/
theorem pullRebaseRecover_spec (p : String) (fs : Fs) (cc srv : Nat)
    (hcb : fsGet fs (Loc.temp (p ++ "-local_backup")) = some cc)
    (hsb : fsGet fs (Loc.temp (p ++ "-server_backup")) = some srv) :
    ∃ k, (pullRebaseRecover p fs).2 = [some (Loc.work (conflictName p k))] ∧
      fsGet (pullRebaseRecover p fs).1 (Loc.work p) = some srv ∧
      fsGet (pullRebaseRecover p fs).1 (Loc.mirror p) = some srv ∧
      fsGet (pullRebaseRecover p fs).1 (Loc.work (conflictName p k)) = some cc ∧
      fsGet (pullRebaseRecover p fs).1 (Loc.work (p ++ "-wal")) = none ∧
      fsGet (pullRebaseRecover p fs).1 (Loc.work (p ++ "-shm")) = none := by
  have hA : fsCopy (Loc.temp (p ++ "-local_backup")) (Loc.work p) fs =
      fsWrite (Loc.work p) cc fs := by
    unfold fsCopy
    rw [hcb]
  set k := firstFreeConflict (fsWrite (Loc.work p) cc fs) p with hk
  obtain ⟨t, hts, htl⟩ := conflictName_shape p k
  have htne : t ≠ "" := str_ne_of_length (by
    have h0 : ("" : String).length = 0 := rfl
    omega)
  have hlp : conflictName p k ≠ p := by
    rw [hts]
    exact (str_ne_append p htne).symm
  have hlw : conflictName p k ≠ p ++ "-wal" := by
    rw [hts]
    refine str_app_ne_app p (str_ne_of_length ?_)
    have h4 : ("-wal" : String).length = 4 := by decide
    omega
  have hlsh : conflictName p k ≠ p ++ "-shm" := by
    rw [hts]
    refine str_app_ne_app p (str_ne_of_length ?_)
    have h4 : ("-shm" : String).length = 4 := by decide
    omega
  have hwsh : (p ++ "-wal") ≠ (p ++ "-shm") := str_app_ne_app p (by decide)
  have hpw : p ≠ p ++ "-wal" := str_ne_append p (by decide)
  have hpsh : p ≠ p ++ "-shm" := str_ne_append p (by decide)
  have hbk : backup_file p (fsWrite (Loc.work p) cc fs) =
      (fsWrite (Loc.work (conflictName p k)) cc (fsWrite (Loc.work p) cc fs),
        some (Loc.work (conflictName p k))) := by
    unfold backup_file
    rw [fsGet_write_same]
    simp only [Option.isNone_some, Bool.false_eq_true, if_false]
    unfold fsCopy
    rw [fsGet_write_same, ← hk]
  -- name the stores along the recovery chain
  set fsB := fsWrite (Loc.work (conflictName p k)) cc (fsWrite (Loc.work p) cc fs)
    with hfsB
  have hsbB : fsGet fsB (Loc.temp (p ++ "-server_backup")) = some srv := by
    rw [hfsB, fsGet_write_ne _ _ (by simp), fsGet_write_ne _ _ (by simp)]
    exact hsb
  have hC : fsCopy (Loc.temp (p ++ "-server_backup")) (Loc.mirror p) fsB =
      fsWrite (Loc.mirror p) srv fsB := by
    unfold fsCopy
    rw [hsbB]
  set fsC := fsWrite (Loc.mirror p) srv fsB with hfsC
  have hsbC : fsGet fsC (Loc.temp (p ++ "-server_backup")) = some srv := by
    rw [hfsC, fsGet_write_ne _ _ (by simp)]
    exact hsbB
  have hD : fsCopy (Loc.temp (p ++ "-server_backup")) (Loc.work p) fsC =
      fsWrite (Loc.work p) srv fsC := by
    unfold fsCopy
    rw [hsbC]
  set fsD := fsWrite (Loc.work p) srv fsC with hfsD
  -- evaluate the recovery function down to the explicit chain
  have hrec : pullRebaseRecover p fs =
      ((if (fsGet (if (fsGet fsD (Loc.work (p ++ "-wal"))).isSome then
            fsRemove (Loc.work (p ++ "-wal")) fsD else fsD)
          (Loc.work (p ++ "-shm"))).isSome then
        fsRemove (Loc.work (p ++ "-shm"))
          (if (fsGet fsD (Loc.work (p ++ "-wal"))).isSome then
            fsRemove (Loc.work (p ++ "-wal")) fsD else fsD)
        else (if (fsGet fsD (Loc.work (p ++ "-wal"))).isSome then
            fsRemove (Loc.work (p ++ "-wal")) fsD else fsD)),
        [some (Loc.work (conflictName p k))]) := by
    unfold pullRebaseRecover
    dsimp only
    rw [hA, hbk]
    dsimp only
    rw [hC, hD]
  rw [hrec]
  dsimp only
  refine ⟨k, rfl, ?_, ?_, ?_, ?_, ?_⟩
  · rw [fsGet_condRemove_ne _ (work_ne_work hpsh),
      fsGet_condRemove_ne _ (work_ne_work hpw), hfsD, fsGet_write_same]
  · rw [fsGet_condRemove_ne _ (by simp), fsGet_condRemove_ne _ (by simp),
      hfsD, fsGet_write_ne _ _ (by simp), hfsC, fsGet_write_same]
  · rw [fsGet_condRemove_ne _ (work_ne_work hlsh),
      fsGet_condRemove_ne _ (work_ne_work hlw), hfsD,
      fsGet_write_ne _ _ (work_ne_work hlp), hfsC,
      fsGet_write_ne _ _ (by simp), hfsB, fsGet_write_same]
  · rw [fsGet_condRemove_ne _ (work_ne_work hwsh), fsGet_condRemove_same]
  · rw [fsGet_condRemove_same]


/-- When the rebase try block fails, the recovery postconditions hold, the
conflict copy holding the local-backup content `cc`. -/
theorem applyPullRebaseTry_spec (gd : GeoDiff) (p : String) (fs2 : Fs)
    (b srv d cc : Nat)
    (h2b : fsGet fs2 (Loc.mirror p) = some b)
    (h2s : fsGet fs2 (Loc.temp p) = some srv)
    (h2d : fsGet fs2 (Loc.work p) = some d)
    (h2cb : fsGet fs2 (Loc.temp (p ++ "-local_backup")) = some cc)
    (h2sb : fsGet fs2 (Loc.temp (p ++ "-server_backup")) = some srv)
    (hfail : rebaseFails gd b srv d) :
    ∃ k, (applyPullRebaseTry gd p fs2).2 =
        [some (Loc.work (conflictName p k))] ∧
      fsGet (applyPullRebaseTry gd p fs2).1 (Loc.work p) = some srv ∧
      fsGet (applyPullRebaseTry gd p fs2).1 (Loc.mirror p) = some srv ∧
      fsGet (applyPullRebaseTry gd p fs2).1 (Loc.work (conflictName p k))
        = some cc ∧
      fsGet (applyPullRebaseTry gd p fs2).1 (Loc.work (p ++ "-wal")) = none ∧
      fsGet (applyPullRebaseTry gd p fs2).1 (Loc.work (p ++ "-shm")) = none := by
  have hsdp : Loc.temp p ≠ Loc.temp (p ++ "-server_diff") :=
    temp_ne_temp (str_ne_append p (by decide))
  have hsdcb : Loc.temp (p ++ "-local_backup") ≠ Loc.temp (p ++ "-server_diff") :=
    temp_ne_temp (str_app_ne_app p (by decide))
  have hsdsb : Loc.temp (p ++ "-server_backup") ≠ Loc.temp (p ++ "-server_diff") :=
    temp_ne_temp (str_app_ne_app p (by decide))
  unfold applyPullRebaseTry
  dsimp only
  rw [h2b, h2s]
  rcases hcs : gd.create_changeset (some b) (some srv) with _ | sd
  · exact pullRebaseRecover_spec p fs2 cc srv h2cb h2sb
  · -- server diff created; the store gains the changeset file
    dsimp only
    rw [fsGet_write_ne _ _ (by simp), fsGet_write_ne _ _ hsdp,
      fsGet_write_ne _ _ (by simp), h2b, h2s, h2d]
    rcases hr : gd.rebase (some b) (some srv) (some d) with _ | nl
    · refine pullRebaseRecover_spec p _ cc srv ?_ ?_
      · rw [fsGet_write_ne _ _ hsdcb]
        exact h2cb
      · rw [fsGet_write_ne _ _ hsdsb]
        exact h2sb
    · -- rebase succeeded; dest overwritten, then the basefile update fails
      dsimp only
      have e1 : fsGet (fsWrite (Loc.work p) nl
          (fsWrite (Loc.temp (p ++ "-server_diff")) sd fs2)) (Loc.mirror p)
          = some b := by
        rw [fsGet_write_ne _ _ (by simp), fsGet_write_ne _ _ (by simp)]
        exact h2b
      have e2 : fsGet (fsWrite (Loc.work p) nl
          (fsWrite (Loc.temp (p ++ "-server_diff")) sd fs2))
          (Loc.temp (p ++ "-server_diff")) = some sd := by
        rw [fsGet_write_ne _ _ (by simp), fsGet_write_same]
      rw [e1, e2]
      have hap : gd.apply_changeset (some b) (some sd) = none := by
        unfold rebaseFails at hfail
        simp only [hcs, hr] at hfail
        exact hfail
      rw [hap]
      refine pullRebaseRecover_spec p _ cc srv ?_ ?_
      · rw [fsGet_write_ne _ _ (by simp), fsGet_write_ne _ _ hsdcb]
        exact h2cb
      · rw [fsGet_write_ne _ _ (by simp), fsGet_write_ne _ _ hsdsb]
        exact h2sb

/-- C1 (amended): for a structured `updated` entry whose path is locally
modified, when the three-way rebase step fails with a library or conflict
error, afterwards the working-tree file and its basefile both hold the
server content, a conflict copy holding the locally modified content — the
basefile with the local changeset applied when that changeset could be
created *and* applied, else a raw snapshot of the working-tree file — sits
next to the file under a `_conflict_copy` name that is recorded in the
returned conflicts list, and the `-wal`/`-shm` sidecars do not exist. -/
theorem c1_rebase_failure_recovery (gd : GeoDiff) (p : String) (fs : Fs)
    (srv d b : Nat)
    (hs : fsGet fs (Loc.temp p) = some srv)
    (hd : fsGet fs (Loc.work p) = some d)
    (hb : fsGet fs (Loc.mirror p) = some b)
    (hfail : rebaseFails gd b srv d) :
    ∃ k, (apply_pull_updated_versioned gd p fs).2 =
        [some (Loc.work (conflictName p k))] ∧
      fsGet (apply_pull_updated_versioned gd p fs).1 (Loc.work p) = some srv ∧
      fsGet (apply_pull_updated_versioned gd p fs).1 (Loc.mirror p) = some srv ∧
      fsGet (apply_pull_updated_versioned gd p fs).1
        (Loc.work (conflictName p k)) = some (localConflictContent gd b d) ∧
      fsGet (apply_pull_updated_versioned gd p fs).1 (Loc.work (p ++ "-wal"))
        = none ∧
      fsGet (apply_pull_updated_versioned gd p fs).1 (Loc.work (p ++ "-shm"))
        = none := by
  have hpsb : Loc.temp p ≠ Loc.temp (p ++ "-server_backup") :=
    temp_ne_temp (str_ne_append p (by decide))
  have hpld : Loc.temp p ≠ Loc.temp (p ++ "-local_diff") :=
    temp_ne_temp (str_ne_append p (by decide))
  have hplb : Loc.temp p ≠ Loc.temp (p ++ "-local_backup") :=
    temp_ne_temp (str_ne_append p (by decide))
  have hsblb : Loc.temp (p ++ "-server_backup") ≠ Loc.temp (p ++ "-local_backup") :=
    temp_ne_temp (str_app_ne_app p (by decide))
  have hsbld : Loc.temp (p ++ "-server_backup") ≠ Loc.temp (p ++ "-local_diff") :=
    temp_ne_temp (str_app_ne_app p (by decide))
  have hlbld : Loc.temp (p ++ "-local_backup") ≠ Loc.temp (p ++ "-local_diff") :=
    temp_ne_temp (str_app_ne_app p (by decide))
  unfold apply_pull_updated_versioned
  dsimp only
  have hfs1 : fsCopy (Loc.temp p) (Loc.temp (p ++ "-server_backup")) fs =
      fsWrite (Loc.temp (p ++ "-server_backup")) srv fs := by
    unfold fsCopy
    rw [hs]
  rw [hfs1]
  have e1 : fsGet (fsWrite (Loc.temp (p ++ "-server_backup")) srv fs)
      (Loc.mirror p) = some b := by
    rw [fsGet_write_ne _ _ (by simp)]
    exact hb
  have e2 : fsGet (fsWrite (Loc.temp (p ++ "-server_backup")) srv fs)
      (Loc.work p) = some d := by
    rw [fsGet_write_ne _ _ (by simp)]
    exact hd
  rw [e1, e2]
  rcases hcl : gd.create_changeset (some b) (some d) with _ | ld
  · -- local changeset could not be created: raw snapshot of dest
    dsimp only
    have hcc : localConflictContent gd b d = d := by
      simp only [localConflictContent, hcl]
    have hfsc : fsCopy (Loc.work p) (Loc.temp (p ++ "-local_backup"))
        (fsWrite (Loc.temp (p ++ "-server_backup")) srv fs) =
        fsWrite (Loc.temp (p ++ "-local_backup")) d
          (fsWrite (Loc.temp (p ++ "-server_backup")) srv fs) := by
      unfold fsCopy
      rw [e2]
    rw [hfsc]
    refine applyPullRebaseTry_spec gd p _ b srv d (localConflictContent gd b d)
      ?_ ?_ ?_ ?_ ?_ hfail
    · rw [fsGet_write_ne _ _ (by simp), fsGet_write_ne _ _ (by simp)]
      exact hb
    · rw [fsGet_write_ne _ _ hplb, fsGet_write_ne _ _ hpsb]
      exact hs
    · rw [fsGet_write_ne _ _ (by simp), fsGet_write_ne _ _ (by simp)]
      exact hd
    · rw [hcc, fsGet_write_same]
    · rw [fsGet_write_ne _ _ hsblb, fsGet_write_same]
  · -- local changeset created; basefile copied and the changeset applied
    dsimp only
    have e3 : fsGet (fsWrite (Loc.temp (p ++ "-local_diff")) ld
        (fsWrite (Loc.temp (p ++ "-server_backup")) srv fs)) (Loc.mirror p)
        = some b := by
      rw [fsGet_write_ne _ _ (by simp), fsGet_write_ne _ _ (by simp)]
      exact hb
    have hfscB : fsCopy (Loc.mirror p) (Loc.temp (p ++ "-local_backup"))
        (fsWrite (Loc.temp (p ++ "-local_diff")) ld
          (fsWrite (Loc.temp (p ++ "-server_backup")) srv fs)) =
        fsWrite (Loc.temp (p ++ "-local_backup")) b
          (fsWrite (Loc.temp (p ++ "-local_diff")) ld
            (fsWrite (Loc.temp (p ++ "-server_backup")) srv fs)) := by
      unfold fsCopy
      rw [e3]
    rw [hfscB]
    have e4 : fsGet (fsWrite (Loc.temp (p ++ "-local_backup")) b
        (fsWrite (Loc.temp (p ++ "-local_diff")) ld
          (fsWrite (Loc.temp (p ++ "-server_backup")) srv fs)))
        (Loc.temp (p ++ "-local_backup")) = some b := fsGet_write_same ..
    have e5 : fsGet (fsWrite (Loc.temp (p ++ "-local_backup")) b
        (fsWrite (Loc.temp (p ++ "-local_diff")) ld
          (fsWrite (Loc.temp (p ++ "-server_backup")) srv fs)))
        (Loc.temp (p ++ "-local_diff")) = some ld := by
      rw [fsGet_write_ne _ _ (Ne.symm hlbld), fsGet_write_same]
    rw [e4, e5]
    rcases hap : gd.apply_changeset (some b) (some ld) with _ | c
    · -- applying the local changeset failed: raw snapshot of dest
      dsimp only
      have hcc : localConflictContent gd b d = d := by
        simp only [localConflictContent, hcl, hap]
      have e6 : fsGet (fsWrite (Loc.temp (p ++ "-local_backup")) b
          (fsWrite (Loc.temp (p ++ "-local_diff")) ld
            (fsWrite (Loc.temp (p ++ "-server_backup")) srv fs)))
          (Loc.work p) = some d := by
        rw [fsGet_write_ne _ _ (by simp), fsGet_write_ne _ _ (by simp),
          fsGet_write_ne _ _ (by simp)]
        exact hd
      have hfsc2 : fsCopy (Loc.work p) (Loc.temp (p ++ "-local_backup"))
          (fsWrite (Loc.temp (p ++ "-local_backup")) b
            (fsWrite (Loc.temp (p ++ "-local_diff")) ld
              (fsWrite (Loc.temp (p ++ "-server_backup")) srv fs))) =
          fsWrite (Loc.temp (p ++ "-local_backup")) d
            (fsWrite (Loc.temp (p ++ "-local_backup")) b
              (fsWrite (Loc.temp (p ++ "-local_diff")) ld
                (fsWrite (Loc.temp (p ++ "-server_backup")) srv fs))) := by
        unfold fsCopy
        rw [e6]
      rw [hfsc2]
      refine applyPullRebaseTry_spec gd p _ b srv d (localConflictContent gd b d)
        ?_ ?_ ?_ ?_ ?_ hfail
      · rw [fsGet_write_ne _ _ (by simp), fsGet_write_ne _ _ (by simp),
          fsGet_write_ne _ _ (by simp), fsGet_write_ne _ _ (by simp)]
        exact hb
      · rw [fsGet_write_ne _ _ hplb, fsGet_write_ne _ _ hplb,
          fsGet_write_ne _ _ hpld, fsGet_write_ne _ _ hpsb]
        exact hs
      · rw [fsGet_write_ne _ _ (by simp), fsGet_write_ne _ _ (by simp),
          fsGet_write_ne _ _ (by simp), fsGet_write_ne _ _ (by simp)]
        exact hd
      · rw [hcc, fsGet_write_same]
      · rw [fsGet_write_ne _ _ hsblb, fsGet_write_ne _ _ hsblb,
          fsGet_write_ne _ _ hsbld, fsGet_write_same]
    · -- base plus local changes snapshot
      dsimp only
      have hcc : localConflictContent gd b d = c := by
        simp only [localConflictContent, hcl, hap]
      refine applyPullRebaseTry_spec gd p _ b srv d (localConflictContent gd b d)
        ?_ ?_ ?_ ?_ ?_ hfail
      · rw [fsGet_write_ne _ _ (by simp), fsGet_write_ne _ _ (by simp),
          fsGet_write_ne _ _ (by simp), fsGet_write_ne _ _ (by simp)]
        exact hb
      · rw [fsGet_write_ne _ _ hplb, fsGet_write_ne _ _ hplb,
          fsGet_write_ne _ _ hpld, fsGet_write_ne _ _ hpsb]
        exact hs
      · rw [fsGet_write_ne _ _ (by simp), fsGet_write_ne _ _ (by simp),
          fsGet_write_ne _ _ (by simp), fsGet_write_ne _ _ (by simp)]
        exact hd
      · rw [hcc, fsGet_write_same]
      · rw [fsGet_write_ne _ _ hsblb, fsGet_write_ne _ _ hsblb,
          fsGet_write_ne _ _ hsbld, fsGet_write_same]

/-- C1 witness: with a geodiff stub whose operations all fail, the local
backup is the raw working-file snapshot and the recovery postconditions
hold at concrete contents. -/
theorem c1_rebase_failure_recovery_witness :
    fsGet [(Loc.temp "a", 7), (Loc.work "a", 5), (Loc.mirror "a", 2)]
        (Loc.temp "a") = some 7 ∧
    fsGet [(Loc.temp "a", 7), (Loc.work "a", 5), (Loc.mirror "a", 2)]
        (Loc.work "a") = some 5 ∧
    fsGet [(Loc.temp "a", 7), (Loc.work "a", 5), (Loc.mirror "a", 2)]
        (Loc.mirror "a") = some 2 ∧
    rebaseFails gdAllFail 2 7 5 ∧
    (∃ k, (apply_pull_updated_versioned gdAllFail "a"
          [(Loc.temp "a", 7), (Loc.work "a", 5), (Loc.mirror "a", 2)]).2 =
        [some (Loc.work (conflictName "a" k))] ∧
      fsGet (apply_pull_updated_versioned gdAllFail "a"
          [(Loc.temp "a", 7), (Loc.work "a", 5), (Loc.mirror "a", 2)]).1
        (Loc.work "a") = some 7 ∧
      fsGet (apply_pull_updated_versioned gdAllFail "a"
          [(Loc.temp "a", 7), (Loc.work "a", 5), (Loc.mirror "a", 2)]).1
        (Loc.mirror "a") = some 7 ∧
      fsGet (apply_pull_updated_versioned gdAllFail "a"
          [(Loc.temp "a", 7), (Loc.work "a", 5), (Loc.mirror "a", 2)]).1
        (Loc.work (conflictName "a" k)) = some (localConflictContent gdAllFail 2 5) ∧
      fsGet (apply_pull_updated_versioned gdAllFail "a"
          [(Loc.temp "a", 7), (Loc.work "a", 5), (Loc.mirror "a", 2)]).1
        (Loc.work ("a" ++ "-wal")) = none ∧
      fsGet (apply_pull_updated_versioned gdAllFail "a"
          [(Loc.temp "a", 7), (Loc.work "a", 5), (Loc.mirror "a", 2)]).1
        (Loc.work ("a" ++ "-shm")) = none) :=
  ⟨by decide, by decide, by decide, trivial,
    c1_rebase_failure_recovery gdAllFail "a"
      [(Loc.temp "a", 7), (Loc.work "a", 5), (Loc.mirror "a", 2)] 7 5 2
      (by decide) (by decide) (by decide) trivial⟩

/-- C1 as stated: on a rebase failure the conflict copy is claimed to hold
"base plus local changes when the local changeset could be created, else a
raw snapshot" — i.e. whenever `create_changeset` succeeds, the copy holds
the result of applying that changeset to the basefile
(`claimedConflictContent`). -/
def C1Stated (gd : GeoDiff) (p : String) (fs : Fs) (srv d b : Nat) : Prop :=
  fsGet fs (Loc.temp p) = some srv →
  fsGet fs (Loc.work p) = some d →
  fsGet fs (Loc.mirror p) = some b →
  rebaseFails gd b srv d →
  ∃ loc cc,
    (apply_pull_updated_versioned gd p fs).2 = [some loc] ∧
    fsGet (apply_pull_updated_versioned gd p fs).1 loc = some cc ∧
    claimedConflictContent gd b d = some cc ∧
    fsGet (apply_pull_updated_versioned gd p fs).1 (Loc.work p) = some srv ∧
    fsGet (apply_pull_updated_versioned gd p fs).1 (Loc.mirror p) = some srv ∧
    fsGet (apply_pull_updated_versioned gd p fs).1 (Loc.work (p ++ "-wal")) = none ∧
    fsGet (apply_pull_updated_versioned gd p fs).1 (Loc.work (p ++ "-shm")) = none

/-- A geodiff stub that creates changesets but fails to apply or rebase
them. -/
def gdCreateOnly : GeoDiff :=
  ⟨fun _ _ => some 100, fun _ _ => none, fun _ _ _ => none, fun _ => none⟩

/-- C1 counterexample: when the local changeset can be *created* but
*applying* it to the basefile copy fails, the code falls back to a raw
snapshot of the working file, while the claim — whose condition is only
that the changeset could be created — calls for base-plus-local-changes
content, which in this run does not even exist. -/
theorem c1_counterexample :
    ¬ C1Stated gdCreateOnly "a"
      [(Loc.temp "a", 7), (Loc.work "a", 5), (Loc.mirror "a", 2)] 7 5 2 := by
  intro h
  obtain ⟨loc, cc, -, -, hclaim, -⟩ :=
    h (by decide) (by decide) (by decide) trivial
  simp only [claimedConflictContent, gdCreateOnly] at hclaim
  cases hclaim
